import Mathlib

/-! # golang-log-tracer: the tree transformation of `main.go`

A shallow embedding of `addLogs` and `addImport` (file `main.go`) together with the
parts of the Go standard library they lean on: `fmt.Sprintf` for the verbs used,
`go/scanner` and `go/parser` for the expression texts the tool writes, and the
`go/ast` node types the tool reads and mutates.

Mutation in place is explicit state passing: every operation returns the new tree.
A Go panic is the `Except.error` result.
-/

namespace LogTracer

/-! ## Constants of `main.go` -/

/-- The constant `logrusImportPath`: the text of the literal, quotes included. -/
def logrusImportPath : String := "\"github.com/sirupsen/logrus\""

/-- The constant `prefixCall`. -/
def prefixCall : String := "CALL>>>"

/-- The constant `prefixReturn`. -/
def prefixReturn : String := "RET>>>"

/-! ## The `go/ast` nodes the tool touches -/

/-- Expressions that occur in a synthesized logging call: `ast.Ident`, `ast.BasicLit`
of kind STRING (its `Value` is the source text, quotes included) and
`ast.SelectorExpr`; any other expression the parser can return is `other`, kept as
its source text. -/
inductive Expr where
  | ident (name : String)
  | basicLit (value : String)
  | selector (x : Expr) (sel : String)
  | other (src : String)
deriving DecidableEq, Repr

/-- The node `ast.CallExpr` with its fields `Fun` and `Args`; positions are left out
here as in every node. -/
structure CallExpr where
  Fun : Expr
  Args : List Expr
deriving DecidableEq, Repr

/-- Statements of a function body. The tool builds `ast.ExprStmt` and `ast.DeferStmt`;
every other statement is carried along untouched and is kept as its source text. -/
inductive Stmt where
  | exprStmt (x : CallExpr)
  | deferStmt (call : CallExpr)
  | other (src : String)
deriving DecidableEq, Repr

/-- The node `ast.Field`: a group of names sharing one type (`Typ`, kept as text). -/
structure Field where
  Names : List String
  Typ : String
deriving DecidableEq, Repr

/-- The node `ast.FuncDecl`, with `Type.Params.List` as `Params` (never nil in a parsed
tree), `Type.Results` as `Results` (nil when the function has no result list) and `Body`
(nil for a function implemented outside Go). -/
structure FuncDecl where
  Recv : Option (List Field)
  Name : String
  Params : List Field
  Results : Option (List Field)
  Body : Option (List Stmt)
deriving DecidableEq, Repr

/-- The node `ast.ImportSpec`: `Name` is the alias (nil when absent), `Path` is
`Path.Value`, the text of the literal with its quotes. -/
structure ImportSpec where
  Name : Option String
  Path : String
deriving DecidableEq, Repr

/-- The tokens a `GenDecl` can carry. -/
inductive Tok where
  | IMPORT | CONST | TYPE | VAR
deriving DecidableEq, Repr

/-- The members of `GenDecl.Specs`: import specs, and value or type specs kept as text. -/
inductive Spec where
  | importSpec (s : ImportSpec)
  | otherSpec (src : String)
deriving DecidableEq, Repr

/-- The node `ast.GenDecl`. -/
structure GenDecl where
  Tok : Tok
  Lparen : Nat
  Rparen : Nat
  Specs : List Spec
deriving DecidableEq, Repr

/-- Top-level declarations of a file. -/
inductive Decl where
  | funcDecl (fn : FuncDecl)
  | genDecl (g : GenDecl)
deriving DecidableEq, Repr

/-- The node `ast.File`: the package name, the declarations, and `Imports`, the list
of import specs that the parser collects while reading the file. -/
structure File where
  Name : String
  Decls : List Decl
  Imports : List ImportSpec
deriving DecidableEq, Repr

/-! ## Text synthesis (lines 108-144 of `main.go`) -/

/-- One step of the inner loop over `arg.Names` (lines 113-119): a name `_` is skipped,
any other name adds `name:%+v, ` to `argsString` and `name, ` to `argsValues`. -/
def argStep (acc : String × String) (name : String) : String × String :=
  if name = "_" then acc
  else (acc.1 ++ (name ++ ":%+v, "), acc.2 ++ (name ++ ", "))

/-- The loops of lines 112-120 over `fn.Type.Params.List`: the pair
`(argsString, argsValues)`. -/
def argsStrings (params : List Field) : String × String :=
  params.foldl (fun acc arg => arg.Names.foldl argStep acc) ("", "")

/-- One step of the inner loop over `ret.Names` (lines 128-131): every name, `_`
included, adds `%+v` to `retString` and `name, ` to `retValues`. -/
def retStep (acc : String × String) (name : String) : String × String :=
  (acc.1 ++ "%+v", acc.2 ++ (name ++ ", "))

/-- The loops of lines 125-133 over `fn.Type.Results.List`, skipped when `Results` is nil:
the pair `(retString, retValues)`. -/
def retStrings (results : Option (List Field)) : String × String :=
  match results with
  | none => ("", "")
  | some l => l.foldl (fun acc ret => ret.Names.foldl retStep acc) ("", "")

/-- The text `loglineCall` of line 135. -/
def loglineCall (path : String) (fn : FuncDecl) : String :=
  "logrus.Infof(\"" ++ prefixCall ++ " " ++ (path ++ ":" ++ fn.Name) ++ "("
    ++ (argsStrings fn.Params).1 ++ ")\", " ++ (argsStrings fn.Params).2 ++ ")"

/-- The text `loglineReturn` of line 144. -/
def loglineReturn (fn : FuncDecl) : String :=
  "logrus.Infof(\"" ++ prefixReturn ++ " " ++ (retStrings fn.Results).1 ++ "\", "
    ++ (retStrings fn.Results).2 ++ ")"

/-! ## The fragment of `go/scanner` and `go/parser` behind `parser.ParseExpr`

`addLogs` hands its two texts to `parser.ParseExpr` and panics when the result is an
error or is not a call. The texts it writes from ordinary input have one shape: a dotted
name, `(`, operands that are a string literal or an identifier, separated by commas with a
comma after the last one, `)`. The model below scans any text with the rules of
`go/scanner` for the tokens of that shape and parses exactly that shape: on a text of the
shape it returns the call Go builds. A text outside the shape is reported as an error,
which by itself says nothing about Go. The Go parser accepts more: an operator between
operands, a comment after the call, nested calls, other literals, and names with letters
or digits outside ASCII, which need the Unicode tables and are scanned here as characters
outside the shape. So the model may report an error where Go would build a tree, never a
tree where Go reports an error.

For this reason `parseExpr` is used in two places only: at concrete texts, where each
step can be followed by hand, and for paths without double quote, backslash and newline
with ASCII names, where the text is of the shape. What is said of every completed run of
`addLogs` is stated with the parser as a parameter (`addLogsWith`, further down), and so
holds with the parser of Go in its place. -/

/-- Tokens of the fragment; `keyword` is a reserved word, `other` is any character
that starts no token of the fragment. -/
inductive Token where
  | ident (name : String)
  | keyword (name : String)
  | string (lit : String)
  | lparen | rparen | comma | period | semicolon
  | other (c : Char)
deriving DecidableEq, Repr

/-- States of the scanner: between tokens (with the `insertSemi` flag of `go/scanner`),
inside an identifier, inside an interpreted string literal, just after a backslash, and
inside a numeric escape with `n` digits still to read in base `base`, value `x` so far
and bound `max`. `acc` is the text of the token read so far. -/
inductive Scan where
  | top (insertSemi : Bool)
  | ident (acc : List Char)
  | str (acc : List Char)
  | esc (acc : List Char)
  | digits (acc : List Char) (n base max x : Nat)
deriving DecidableEq, Repr

/-- The letters of `go/scanner` within ASCII, by code point: `a`-`z` (97-122),
`A`-`Z` (65-90) and `_` (95). -/
def isLetter (c : Char) : Bool :=
  (97 ≤ c.toNat && c.toNat ≤ 122) || (65 ≤ c.toNat && c.toNat ≤ 90) || c.toNat = 95

/-- The decimal digits `0`-`9` (48-57). -/
def isDecimal (c : Char) : Bool := 48 ≤ c.toNat && c.toNat ≤ 57

/-- The function `digitVal` of `go/scanner`: the value of a hexadecimal digit, 16 for
any other character. -/
def digitVal (c : Char) : Nat :=
  if '0' ≤ c && c ≤ '9' then c.toNat - '0'.toNat
  else if 'a' ≤ c && c ≤ 'f' then c.toNat - 'a'.toNat + 10
  else if 'A' ≤ c && c ≤ 'F' then c.toNat - 'A'.toNat + 10
  else 16

/-- The reserved words of Go, which `go/token` looks up for every scanned name. -/
def keywords : List String :=
  ["break", "case", "chan", "const", "continue", "default", "defer", "else",
   "fallthrough", "for", "func", "go", "goto", "if", "interface", "map", "package",
   "range", "return", "select", "struct", "switch", "type", "var", "import"]

/-- The token of a scanned name: `token.Lookup`. -/
def nameToken (acc : List Char) : Token :=
  if String.mk acc ∈ keywords then .keyword (String.mk acc) else .ident (String.mk acc)

/-- Characters that `Scanner.next` reports wherever they stand: NUL and a byte order
mark that is not the first character (the texts here never start with one). -/
def illegalChar (c : Char) : Bool := c.toNat = 0 || c.toNat = 0xFEFF

/-- One character read between tokens: white space is skipped, a newline becomes a
semicolon when `insertSemi` is set, a letter opens an identifier, a double quote opens
a string literal, and `(`, `)`, `,`, `.` are tokens of their own. -/
def topNext (insertSemi : Bool) (c : Char) : List Token × Scan :=
  if c = ' ' || c = '\t' || c = '\r' then ([], .top insertSemi)
  else if c = '\n' then (if insertSemi then [.semicolon] else [], .top false)
  else if isLetter c then ([], .ident [c])
  else if c = '"' then ([], .str [c])
  else if c = '(' then ([.lparen], .top false)
  else if c = ')' then ([.rparen], .top true)
  else if c = ',' then ([.comma], .top false)
  else if c = '.' then ([.period], .top false)
  else ([.other c], .top false)

/-- One step of the scanner: the tokens completed by reading `c` and the next state,
or the error `go/scanner` reports. The `str` case is `scanString`, the `esc` and
`digits` cases are `scanEscape`. -/
def next (st : Scan) (c : Char) : Except String (List Token × Scan) :=
  if illegalChar c then .error "illegal character"
  else
    match st with
    | .top b => .ok (topNext b c)
    | .ident acc =>
      if isLetter c || isDecimal c then .ok ([], .ident (acc ++ [c]))
      else .ok (nameToken acc :: (topNext true c).1, (topNext true c).2)
    | .str acc =>
      if c = '\n' then .error "string literal not terminated"
      else if c = '"' then .ok ([.string (String.mk (acc ++ [c]))], .top true)
      else if c = '\\' then .ok ([], .esc (acc ++ [c]))
      else .ok ([], .str (acc ++ [c]))
    | .esc acc =>
      if c = 'a' || c = 'b' || c = 'f' || c = 'n' || c = 'r' || c = 't' || c = 'v'
          || c = '\\' || c = '"' then .ok ([], .str (acc ++ [c]))
      else if '0' ≤ c && c ≤ '7' then .ok ([], .digits (acc ++ [c]) 2 8 255 (digitVal c))
      else if c = 'x' then .ok ([], .digits (acc ++ [c]) 2 16 255 0)
      else if c = 'u' then .ok ([], .digits (acc ++ [c]) 4 16 0x10FFFF 0)
      else if c = 'U' then .ok ([], .digits (acc ++ [c]) 8 16 0x10FFFF 0)
      else .error "unknown escape sequence"
    | .digits acc n base max x =>
      if base ≤ digitVal c then .error "illegal character in escape sequence"
      else
        let x1 := x * base + digitVal c
        if n ≤ 1 then
          if max < x1 || (0xD800 ≤ x1 && x1 < 0xE000) then
            .error "escape sequence is invalid Unicode code point"
          else .ok ([], .str (acc ++ [c]))
        else .ok ([], .digits (acc ++ [c]) (n - 1) base max x1)

/-- What the scanner does at the end of the text. -/
def finish : Scan → Except String (List Token)
  | .top _ => .ok []
  | .ident acc => .ok [nameToken acc]
  | .str _ => .error "string literal not terminated"
  | .esc _ => .error "escape sequence not terminated"
  | .digits _ _ _ _ _ => .error "escape sequence not terminated"

/-- The scanner run over a text from state `st`: all tokens, or the first error. -/
def scan : Scan → List Char → Except String (List Token)
  | st, [] => finish st
  | st, c :: cs =>
    match next st c with
    | .error e => .error e
    | .ok (toks, st1) =>
      match scan st1 cs with
      | .error e => .error e
      | .ok rest => .ok (toks ++ rest)

/-- The selectors after an operand: each `.name` wraps the expression read so far. -/
def parseSelectors (x : Expr) : List Token → Expr × List Token
  | .period :: .ident s :: rest => parseSelectors (.selector x s) rest
  | ts => (x, ts)

/-- The argument list after `(`: operands separated by commas, a comma allowed after
the last one, up to the closing `)`. Returns the arguments and the tokens left. -/
def parseArgs : List Token → Option (List Expr × List Token)
  | .rparen :: rest => some ([], rest)
  | .ident s :: .rparen :: rest => some ([.ident s], rest)
  | .string s :: .rparen :: rest => some ([.basicLit s], rest)
  | .ident s :: .comma :: rest =>
    match parseArgs rest with
    | some (as, r) => some (.ident s :: as, r)
    | none => none
  | .string s :: .comma :: rest =>
    match parseArgs rest with
    | some (as, r) => some (.basicLit s :: as, r)
    | none => none
  | _ => none

/-- The call shape on tokens: a dotted name, an argument list, nothing after it but
the semicolon a final newline inserts. -/
def parseCall (toks : List Token) : Except String CallExpr :=
  match toks with
  | .ident a :: rest =>
    match parseSelectors (.ident a) rest with
    | (fn, .lparen :: rest1) =>
      match parseArgs rest1 with
      | some (args, []) => .ok ⟨fn, args⟩
      | some (args, [.semicolon]) => .ok ⟨fn, args⟩
      | _ => .error "not a call of the modelled shape"
    | _ => .error "not a call of the modelled shape"
  | _ => .error "not a call of the modelled shape"

/-- The function `parser.ParseExpr` followed by the type assertion to `*ast.CallExpr`
(lines 136-140 and 145-149), on the fragment described above: the call Go builds for a
text of the shape, an error for a text outside it, whatever Go makes of that text. -/
def parseExpr (x : String) : Except String CallExpr :=
  match scan (.top false) x.toList with
  | .error e => .error e
  | .ok toks => parseCall toks

/-! ## `addLogs` (lines 94-171) -/

/-- The body of the `*ast.FuncDecl` branch of the callback (lines 102-157) for one
function declaration: both texts are parsed, a failure of either is the panic of line 138
or 147 (or of the type assertions of lines 140 and 149), and line 155 dereferences
`fn.Body`, a nil pointer panic when the body is absent. -/
def addLogsFunc (path : String) (fn : FuncDecl) : Except String FuncDecl :=
  match parseExpr (loglineCall path fn) with
  | .error e => .error e
  | .ok callExpr =>
    match parseExpr (loglineReturn fn) with
    | .error e => .error e
    | .ok retExpr =>
      match fn.Body with
      | none => .error "nil pointer dereference"
      | some list => .ok { fn with Body := some (.exprStmt callExpr :: .deferStmt retExpr :: list) }

/-- The traversal `ast.Inspect` of lines 98-168 over the declarations of the file, in
order, with the `*ast.FuncDecl` branch of the callback as `visit`. A `*ast.FuncDecl`
occurs only as a top-level declaration, so that branch runs once per element of `f.Decls`
that is a function declaration; the statements it puts into the body are visited
afterwards and hold no function declaration. The second branch (`*ast.ReturnStmt`, lines
158-165) only fills two local strings. The result is the flag `changed` and the new
declaration list; a panic of `visit` ends the traversal. -/
def inspectDecls (visit : FuncDecl → Except String FuncDecl) :
    List Decl → Except String (Bool × List Decl)
  | [] => .ok (false, [])
  | .funcDecl fn :: ds =>
    match visit fn with
    | .error e => .error e
    | .ok fn1 =>
      match inspectDecls visit ds with
      | .error e => .error e
      | .ok (_, ds1) => .ok (true, .funcDecl fn1 :: ds1)
  | .genDecl g :: ds =>
    match inspectDecls visit ds with
    | .error e => .error e
    | .ok (changed, ds1) => .ok (changed, .genDecl g :: ds1)

/-- The function `addLogs`: the flag `changed` and the mutated file, or the panic. -/
def addLogs (path : String) (f : File) : Except String (Bool × File) :=
  match inspectDecls (addLogsFunc path) f.Decls with
  | .error e => .error e
  | .ok (changed, ds) => .ok (changed, { f with Decls := ds })

/-! ## `addImport` (lines 173-208) -/

/-- The scan of lines 174-180 over `f.Imports`. -/
def hasLogrusImport (imports : List ImportSpec) : Bool :=
  imports.any (fun im => im.Path = logrusImportPath && im.Name.isNone)

/-- The value `newImport` of line 184. -/
def newImport : ImportSpec := { Name := none, Path := logrusImportPath }

/-- Whether a declaration is a `GenDecl` with token IMPORT. -/
def isImportDecl : Decl → Bool
  | .genDecl g => g.Tok = .IMPORT
  | .funcDecl _ => false

/-- The callback of lines 186-196 at one declaration (it is only entered with
`hasLogrusImport` false): an IMPORT `GenDecl` gets `newImport` appended to its specs. -/
def appendImport : Decl → Decl
  | .genDecl g =>
    if g.Tok = .IMPORT then .genDecl { g with Specs := g.Specs ++ [.importSpec newImport] }
    else .genDecl g
  | .funcDecl fn => .funcDecl fn

/-- The value `importDecl` of lines 198-203. -/
def importDecl : GenDecl :=
  { Tok := .IMPORT, Lparen := 1, Rparen := 1, Specs := [.importSpec newImport] }

/-- The function `addImport`. `ast.Inspect` reaches every `GenDecl` of the tree; those
inside function bodies declare constants, types or variables, never imports, so only the
top-level declarations matter. `importSectionFound` is true when one of them is an import
declaration. `f.Imports` is read and never written. -/
def addImport (f : File) : File :=
  if hasLogrusImport f.Imports then f
  else
    let decls := f.Decls.map appendImport
    if f.Decls.any isImportDecl then { f with Decls := decls }
    else { f with Decls := .genDecl importDecl :: decls }

/-- What `parser.ParseFile` puts into `File.Imports`: the import specs of the import
declarations, in source order. -/
def importsOf : List Decl → List ImportSpec
  | [] => []
  | .genDecl g :: ds =>
    (if g.Tok = .IMPORT then
      g.Specs.filterMap (fun s => match s with | .importSpec i => some i | .otherSpec _ => none)
     else []) ++ importsOf ds
  | .funcDecl _ :: ds => importsOf ds

/-- A file as the parser returns it: `Imports` lists the import specs of `Decls`. -/
def Parsed (f : File) : Prop := f.Imports = importsOf f.Decls

instance (f : File) : Decidable (Parsed f) := by unfold Parsed; infer_instance

/-! ## Counting -/

/-- The number of import specs with the logging path, aliased or not, in the specs of a
declaration. -/
def pathSpecs (specs : List Spec) : Nat :=
  specs.countP (fun s => match s with
    | .importSpec i => i.Path = logrusImportPath
    | .otherSpec _ => false)

/-- The number of unaliased import specs with the logging path in a spec list. -/
def unaliasedSpecs (specs : List Spec) : Nat :=
  specs.countP (fun s => match s with
    | .importSpec i => i.Path = logrusImportPath && i.Name.isNone
    | .otherSpec _ => false)

/-- The number of import specs with the logging path across all import declarations. -/
def pathCount : List Decl → Nat
  | [] => 0
  | .genDecl g :: ds => (if g.Tok = .IMPORT then pathSpecs g.Specs else 0) + pathCount ds
  | .funcDecl _ :: ds => pathCount ds

/-- The number of unaliased import specs with the logging path across all import
declarations. -/
def unaliasedCount : List Decl → Nat
  | [] => 0
  | .genDecl g :: ds =>
    (if g.Tok = .IMPORT then unaliasedSpecs g.Specs else 0) + unaliasedCount ds
  | .funcDecl _ :: ds => unaliasedCount ds

/-- The number of import declarations. -/
def importDeclCount (ds : List Decl) : Nat := ds.countP isImportDecl

/-! ## Sample trees -/

/-- The selector `logrus.Infof`. -/
def infof : Expr := .selector (.ident "logrus") "Infof"

/-- The declaration `func f(p int) (r int) { return p }`. -/
def fnOneOne : FuncDecl :=
  { Recv := none, Name := "f", Params := [⟨["p"], "int"⟩], Results := some [⟨["r"], "int"⟩],
    Body := some [.other "return p"] }

/-- The declaration `func f() (_ int) { return 0 }`. -/
def fnBlankResult : FuncDecl :=
  { Recv := none, Name := "f", Params := [], Results := some [⟨["_"], "int"⟩],
    Body := some [.other "return 0"] }

/-- The declaration `func f() {}`. -/
def fnEmpty : FuncDecl :=
  { Recv := none, Name := "f", Params := [], Results := none, Body := some [] }

/-- The declaration `func f() int { return 0 }`. -/
def fnUnnamedResult : FuncDecl :=
  { Recv := none, Name := "f", Params := [], Results := some [⟨[], "int"⟩],
    Body := some [.other "return 0"] }

/-- The file `package main; func f() {}` as parsed: no import declaration. -/
def fileNoImport : File :=
  { Name := "main", Decls := [.funcDecl fnEmpty], Imports := [] }

/-- The file `package main; import log "github.com/sirupsen/logrus"; func f() {}` as
parsed. -/
def fileAliased : File :=
  { Name := "main",
    Decls := [.genDecl ⟨.IMPORT, 0, 0, [.importSpec ⟨some "log", logrusImportPath⟩]⟩,
              .funcDecl fnEmpty],
    Imports := [⟨some "log", logrusImportPath⟩] }

/-! ## Predicates on the input -/

/-- A character that may stand in an interpreted string literal as itself: not the
double quote, not the backslash, not a newline, and none the scanner rejects. -/
def plainChar (c : Char) : Bool :=
  !(c = '"') && !(c = '\\') && !(c = '\n') && !illegalChar c

/-- A text all of whose characters are plain. -/
def plainText (s : String) : Bool := s.toList.all plainChar

/-- A Go identifier within ASCII: a letter, then letters and digits, and no reserved
word. Every name in a parsed tree is one (or uses letters outside ASCII). -/
def isIdentifier (s : String) : Bool :=
  match s.toList with
  | [] => false
  | c :: cs => isLetter c && cs.all (fun d => isLetter d || isDecimal d) && !(keywords.contains s)

/-- The names of a field list, flattened across the groups in declaration order. -/
def fieldNames (fields : List Field) : List String := fields.flatMap (fun fl => fl.Names)

/-- The parameter names the entry trace logs: all names but `_`. -/
def paramNames (fn : FuncDecl) : List String :=
  (fieldNames fn.Params).filter (fun n => !(n = "_"))

/-- The result names the exit trace logs: all names. -/
def resultNames (fn : FuncDecl) : List String :=
  match fn.Results with
  | none => []
  | some l => fieldNames l

/-- A function declaration as the parser builds it from ASCII source: its name and the
names of its parameters and results are identifiers. -/
def wellNamed (fn : FuncDecl) : Bool :=
  isIdentifier fn.Name && (fieldNames fn.Params).all isIdentifier
    && (resultNames fn).all isIdentifier

/-- The scanner over the first part of a text: the tokens completed there and the state
reached, so that `scan` over the whole text continues from that state. -/
def run : Scan → List Char → Except String (List Token × Scan)
  | st, [] => .ok ([], st)
  | st, c :: cs =>
    match next st c with
    | .error e => .error e
    | .ok (toks, st1) =>
      match run st1 cs with
      | .error e => .error e
      | .ok (rest, st2) => .ok (toks ++ rest, st2)

/-- The message of the entry trace: the text between the quotes in `loglineCall`. -/
def callMessage (path : String) (fn : FuncDecl) : String :=
  prefixCall ++ " " ++ (path ++ ":" ++ fn.Name) ++ "(" ++ (argsStrings fn.Params).1 ++ ")"

/-- The message of the exit trace: the text between the quotes in `loglineReturn`. -/
def returnMessage (fn : FuncDecl) : String :=
  prefixReturn ++ " " ++ (retStrings fn.Results).1

/-- The call a text `logrus.Infof("msg", n1, ..., nk, )` stands for. -/
def infofCall (msg : String) (names : List String) : CallExpr :=
  ⟨infof, .basicLit ("\"" ++ msg ++ "\"") :: names.map .ident⟩

/-- Whether a run ended in a panic. -/
def panics {α : Type} (r : Except String α) : Bool :=
  match r with
  | .error _ => true
  | .ok _ => false

/-- A top-level declaration that `addLogs` can instrument under a plain path: a function
declaration must be well named and have a body. -/
def instrumentable : Decl → Bool
  | .funcDecl fn => wellNamed fn && fn.Body.isSome
  | .genDecl _ => true

/-- Where `fmt` stands in a format: in plain text, or inside a directive after `%`
reading flags, the width, or the precision. -/
inductive Fmt where
  | text | flags | width | prec
deriving DecidableEq, Repr

/-- The number of operands a format consumes, as `fmt.Sprintf` reads it: a directive is
`%`, flags out of `#0+- `, a decimal width, `.` and a decimal precision, and a verb; the
verb `%` prints a percent sign and takes no operand, any other verb takes one. The `*`
and `[n]` forms are not modelled. -/
def operandsFrom : Fmt → List Char → Nat
  | _, [] => 0
  | .text, c :: cs => if c = '%' then operandsFrom .flags cs else operandsFrom .text cs
  | .flags, c :: cs =>
    if c = '#' || c = '0' || c = '+' || c = '-' || c = ' ' then operandsFrom .flags cs
    else if isDecimal c then operandsFrom .width cs
    else if c = '.' then operandsFrom .prec cs
    else (if c = '%' then 0 else 1) + operandsFrom .text cs
  | .width, c :: cs =>
    if isDecimal c then operandsFrom .width cs
    else if c = '.' then operandsFrom .prec cs
    else (if c = '%' then 0 else 1) + operandsFrom .text cs
  | .prec, c :: cs =>
    if isDecimal c then operandsFrom .prec cs
    else (if c = '%' then 0 else 1) + operandsFrom .text cs

/-- The number of placeholders of a message. -/
def operands (msg : String) : Nat := operandsFrom .text msg.toList

/-- A text without a percent sign. -/
def noPercent (s : String) : Bool := s.toList.all (fun c => !(c = '%'))

/-- The file `package main; func f() {}` after `addImport` has run on it twice. -/
def fileTwice : File :=
  { Name := "main",
    Decls := [.genDecl ⟨.IMPORT, 1, 1, [.importSpec newImport, .importSpec newImport]⟩,
              .funcDecl fnEmpty],
    Imports := [] }

/-! ## `modify` (lines 63-92) -/

/-- Lines 73-77 of `modify`, the part that works on the tree: `addLogs`, then `addImport`
when the flag `changed` is set. -/
def modifyTree (path : String) (file : File) : Except String File :=
  match addLogs path file with
  | .error e => .error e
  | .ok (changed, file1) => .ok (if changed then addImport file1 else file1)

/-- What `modify` meets outside the program: the flag `*dry`, and for each call it makes
the outcome of that call. `parseFile` is `parser.ParseFile` (the tree or the error),
`openFile` is the error of `os.OpenFile` and `fprint` the error of `printer.Fprint` on
the tree it is given (`none` is the nil error). -/
structure Env where
  dry : Bool
  parseFile : String → Except String File
  openFile : String → Option String
  fprint : File → Option String

/-- The function `modify`: the error it returns (`none` is nil), or the panic of
`addLogs`. The error of the parse is returned (line 68) and so is the error of
`os.OpenFile` (line 84); the value of `printer.Fprint` is dropped on both branches
(lines 80 and 88), and line 91 returns the `err` of the parse, nil by then. -/
def modify (env : Env) (f : String) : Except String (Option String) :=
  match env.parseFile f with
  | .error err => .ok (some err)
  | .ok file =>
    match modifyTree f file with
    | .error e => .error e
    | .ok file1 =>
      if env.dry then
        let _ := env.fprint file1
        .ok none
      else
        match env.openFile f with
        | some err => .ok (some err)
        | none =>
          let _ := env.fprint file1
          .ok none

/-! ## More sample trees -/

/-- Whether a declaration is a function declaration. -/
def isFuncDecl : Decl → Bool
  | .funcDecl _ => true
  | .genDecl _ => false

/-- The declaration `func Add(a int, b int) (sum int) { sum = a + b; return }`. -/
def fnAdd : FuncDecl :=
  { Recv := none, Name := "Add", Params := [⟨["a"], "int"⟩, ⟨["b"], "int"⟩],
    Results := some [⟨["sum"], "int"⟩],
    Body := some [.other "sum = a + b", .other "return"] }

/-- The file that declares only `Add`, as parsed: no import declaration. -/
def fileAdd : File :=
  { Name := "main", Decls := [.funcDecl fnAdd], Imports := [] }

/-- The tree the file `fileAdd` at `path` is to become: an import declaration with the
logging spec alone, then `Add` with the entry call, the deferred exit call and its two
former statements. -/
def fileAddDone (path : String) : File :=
  { Name := "main",
    Decls := [.genDecl ⟨.IMPORT, 1, 1, [.importSpec ⟨none, "\"github.com/sirupsen/logrus\""⟩]⟩,
      .funcDecl { fnAdd with Body := some (
        [.exprStmt ⟨infof, [.basicLit ("\"CALL>>> " ++ path ++ ":Add(a:%+v, b:%+v, )\""),
            .ident "a", .ident "b"]⟩,
         .deferStmt ⟨infof, [.basicLit "\"RET>>> %+v\"", .ident "sum"]⟩,
         .other "sum = a + b", .other "return"]) }],
    Imports := [] }

/-- The file `package main; import "fmt"; import "os"; func f() {}` as parsed, with
two import declarations, neither with the logging path. -/
def fileTwoImports : File :=
  { Name := "main",
    Decls := [.genDecl ⟨.IMPORT, 0, 0, [.importSpec ⟨none, "\"fmt\""⟩]⟩,
              .genDecl ⟨.IMPORT, 0, 0, [.importSpec ⟨none, "\"os\""⟩]⟩,
              .funcDecl fnEmpty],
    Imports := [⟨none, "\"fmt\""⟩, ⟨none, "\"os\""⟩] }

/-- The file `package main; import "github.com/sirupsen/logrus"; func f() {}` as
parsed. -/
def fileLogrus : File :=
  { Name := "main",
    Decls := [.genDecl ⟨.IMPORT, 0, 0, [.importSpec ⟨none, logrusImportPath⟩]⟩,
              .funcDecl fnEmpty],
    Imports := [⟨none, logrusImportPath⟩] }

/-- The file `package main; var x int` as parsed: no function declaration. -/
def fileNoFunc : File :=
  { Name := "main", Decls := [.genDecl ⟨.VAR, 0, 0, [.otherSpec "x int"]⟩], Imports := [] }

/-- The declaration `func f()` of a function implemented outside Go: no body. -/
def fnBodiless : FuncDecl :=
  { Recv := none, Name := "f", Params := [], Results := none, Body := none }

/-- The file `package main; func f()` as parsed. -/
def fileBodiless : File :=
  { Name := "main", Decls := [.funcDecl fnBodiless], Imports := [] }

/-- The method `func (t T) get(i int) (v int) { return t.a[i] }`. -/
def fnMethod : FuncDecl :=
  { Recv := some [⟨["t"], "T"⟩], Name := "get", Params := [⟨["i"], "int"⟩],
    Results := some [⟨["v"], "int"⟩], Body := some [.other "return t.a[i]"] }

/-- A file with a variable, the method `get` and the function `f`, as parsed. -/
def fileTwoFuncs : File :=
  { Name := "main",
    Decls := [.genDecl ⟨.VAR, 0, 0, [.otherSpec "x int"]⟩, .funcDecl fnMethod,
              .funcDecl fnEmpty],
    Imports := [] }

/-- The file `package main; func f() {}` after one run of `addLogs` with the path
`a.go`. -/
def fileOnce : File :=
  { Name := "main",
    Decls := [.funcDecl { fnEmpty with Body := some (
      [.exprStmt ⟨infof, [.basicLit "\"CALL>>> a.go:f()\""]⟩,
       .deferStmt ⟨infof, [.basicLit "\"RET>>> \""]⟩]) }],
    Imports := [] }

/-- The file `package main; func f() {}` after two runs of `addLogs` with the path
`a.go`. -/
def fileNested : File :=
  { Name := "main",
    Decls := [.funcDecl { fnEmpty with Body := some (
      [.exprStmt ⟨infof, [.basicLit "\"CALL>>> a.go:f()\""]⟩,
       .deferStmt ⟨infof, [.basicLit "\"RET>>> \""]⟩,
       .exprStmt ⟨infof, [.basicLit "\"CALL>>> a.go:f()\""]⟩,
       .deferStmt ⟨infof, [.basicLit "\"RET>>> \""]⟩]) }],
    Imports := [] }

/-- An environment in which the parse of any path gives `fileNoImport`, the file can be
opened, and `printer.Fprint` fails on every tree. -/
def envPrintFails (dry : Bool) : Env :=
  { dry := dry
    parseFile := fun _ => .ok fileNoImport
    openFile := fun _ => none
    fprint := fun _ => some "write error" }

/-! ## `addLogs` with the parser as a parameter, and the traversal node by node

`parser.ParseExpr` is not part of the program. In this section it is a parameter
`parse`: any function from a text to the call it stands for or to the error (an error is
also the text that parses to something other than a call, where the type assertion of
line 140 or 149 panics). What holds for every `parse` holds for the parser of Go. The
traversal `ast.Inspect` is followed node by node, in the order of `ast.Walk`: the
callback runs on a node, then the children of the node as the callback left it are
walked. The calls of the callback with a nil node, by which `ast.Inspect` closes each
subtree, are left out: both type tests of the callback fail on nil. Comment groups are
left out as well: the tree here does not keep them, and they are neither a
`*ast.FuncDecl` nor a `*ast.ReturnStmt`. -/

/-- The `*ast.FuncDecl` branch of the callback (lines 102-157) with `parse` in the place
of `parser.ParseExpr` and the type assertion. -/
def addLogsFuncWith (parse : String → Except String CallExpr) (path : String)
    (fn : FuncDecl) : Except String FuncDecl :=
  match parse (loglineCall path fn) with
  | .error e => .error e
  | .ok callExpr =>
    match parse (loglineReturn fn) with
    | .error e => .error e
    | .ok retExpr =>
      match fn.Body with
      | none => .error "nil pointer dereference"
      | some list => .ok { fn with Body := some (.exprStmt callExpr :: .deferStmt retExpr :: list) }

/-- The nodes `ast.Walk` hands to the callback, by kind. Identifiers and literals are
expressions. A statement other than an expression statement with a call or a defer
statement, the type of a field and a spec other than an import spec are kept as text,
and their inner nodes are not listed: none of them is a `*ast.FuncDecl`, which Go has
among the declarations of a file only. -/
inductive Node where
  | file (f : File)
  | genDecl (g : GenDecl)
  | spec (s : Spec)
  | funcDecl (fn : FuncDecl)
  | fieldList (list : List Field)
  | field (fl : Field)
  | funcType (params : List Field) (results : Option (List Field))
  | blockStmt (list : List Stmt)
  | stmt (s : Stmt)
  | callExpr (c : CallExpr)
  | expr (e : Expr)
deriving DecidableEq, Repr

/-- Whether a node is a function declaration. -/
def isFuncDeclNode : Node → Bool
  | .funcDecl _ => true
  | _ => false

/-- The function declaration of a node that is one. -/
def funcDeclOfNode : Node → Option FuncDecl
  | .funcDecl fn => some fn
  | _ => none

/-- The function declaration of a declaration that is one. -/
def funcDeclOf : Decl → Option FuncDecl
  | .funcDecl fn => some fn
  | .genDecl _ => none

/-- The nodes of an expression in the order `ast.Walk` reaches them: the expression,
and for a selector its operand and its selected name. -/
def nodesOfExpr : Expr → List Node
  | .selector x sel => .expr (.selector x sel) :: (nodesOfExpr x ++ [.expr (.ident sel)])
  | .ident name => [.expr (.ident name)]
  | .basicLit value => [.expr (.basicLit value)]
  | .other src => [.expr (.other src)]

/-- The nodes of a call: the call, its function, its arguments. -/
def nodesOfCall (c : CallExpr) : List Node :=
  .callExpr c :: (nodesOfExpr c.Fun ++ c.Args.flatMap nodesOfExpr)

/-- The nodes of a statement: the statement, and for an expression statement or a defer
statement the nodes of its call. -/
def nodesOfStmt : Stmt → List Node
  | .exprStmt x => .stmt (.exprStmt x) :: nodesOfCall x
  | .deferStmt call => .stmt (.deferStmt call) :: nodesOfCall call
  | .other src => [.stmt (.other src)]

/-- The nodes of a field: the field, its names, its type. -/
def nodesOfField (fl : Field) : List Node :=
  .field fl :: (fl.Names.map (fun n => Node.expr (.ident n)) ++ [.expr (.other fl.Typ)])

/-- The nodes of a field list: the list, then its fields. -/
def nodesOfFieldList (list : List Field) : List Node :=
  .fieldList list :: list.flatMap nodesOfField

/-- The nodes below a function declaration in the order of `ast.Walk`: the receiver when
there is one, the name, the function type with parameters and results, and the body when
there is one, a block with its statements. -/
def nodesBelowFunc (fn : FuncDecl) : List Node :=
  (match fn.Recv with
    | none => []
    | some list => nodesOfFieldList list)
  ++ (.expr (.ident fn.Name)
  :: (.funcType fn.Params fn.Results
  :: (nodesOfFieldList fn.Params
  ++ ((match fn.Results with
        | none => []
        | some list => nodesOfFieldList list)
  ++ (match fn.Body with
        | none => []
        | some list => .blockStmt list :: list.flatMap nodesOfStmt)))))

/-- The nodes of a spec: the spec, and for an import spec its alias when there is one
and its path. -/
def nodesOfSpec : Spec → List Node
  | .importSpec i =>
    .spec (.importSpec i) :: ((match i.Name with
      | none => []
      | some n => [Node.expr (.ident n)]) ++ [.expr (.basicLit i.Path)])
  | .otherSpec src => [.spec (.otherSpec src)]

/-- The nodes below a `GenDecl`: its specs. -/
def nodesBelowGen (g : GenDecl) : List Node := g.Specs.flatMap nodesOfSpec

/-- The callback of lines 98-168 at one node. For a `*ast.FuncDecl` the first branch
runs: it sets `changed` and leaves the declaration with its new body (`some`), or panics.
For any other node neither branch changes anything (`none`); the second branch, for a
`*ast.ReturnStmt`, only fills two local strings. -/
def callback (parse : String → Except String CallExpr) (path : String) :
    Node → Except String (Option FuncDecl)
  | .funcDecl fn =>
    match addLogsFuncWith parse path fn with
    | .error e => .error e
    | .ok fn1 => .ok (some fn1)
  | _ => .ok none

/-- The callback run on a list of nodes in order; these are nodes that are no function
declaration, on which the callback can panic and cannot change the tree. -/
def callbacks (cb : Node → Except String (Option FuncDecl)) : List Node → Except String Unit
  | [] => .ok ()
  | n :: ns =>
    match cb n with
    | .error e => .error e
    | .ok _ => callbacks cb ns

/-- The function `ast.Walk` at one top-level declaration: the callback runs on the
declaration, then the nodes below the declaration as the callback left it are walked.
The result is the declaration after the walk, whether the callback changed it, and the
nodes the callback was handed, in order. -/
def walkDecl (cb : Node → Except String (Option FuncDecl)) :
    Decl → Except String (Decl × Bool × List Node)
  | .funcDecl fn =>
    match cb (.funcDecl fn) with
    | .error e => .error e
    | .ok r =>
      match callbacks cb (nodesBelowFunc (r.getD fn)) with
      | .error e => .error e
      | .ok _ =>
        .ok (.funcDecl (r.getD fn), r.isSome, Node.funcDecl fn :: nodesBelowFunc (r.getD fn))
  | .genDecl g =>
    match cb (.genDecl g) with
    | .error e => .error e
    | .ok _ =>
      match callbacks cb (nodesBelowGen g) with
      | .error e => .error e
      | .ok _ => .ok (.genDecl g, false, Node.genDecl g :: nodesBelowGen g)

/-- The function `walkList` of `ast.Walk` over the declarations of the file. -/
def walkDecls (cb : Node → Except String (Option FuncDecl)) :
    List Decl → Except String (List Decl × Bool × List Node)
  | [] => .ok ([], false, [])
  | d :: ds =>
    match walkDecl cb d with
    | .error e => .error e
    | .ok (d1, c1, t1) =>
      match walkDecls cb ds with
      | .error e => .error e
      | .ok (ds1, c2, t2) => .ok (d1 :: ds1, c1 || c2, t1 ++ t2)

/-- The function `ast.Inspect` on a file: the callback on the file and on its name,
then the walk over its declarations. The result is the file after the walk, the flag
the callback keeps, and the nodes the callback was handed, in order. -/
def inspectFile (cb : Node → Except String (Option FuncDecl)) (f : File) :
    Except String (File × Bool × List Node) :=
  match callbacks cb [.file f, .expr (.ident f.Name)] with
  | .error e => .error e
  | .ok _ =>
    match walkDecls cb f.Decls with
    | .error e => .error e
    | .ok (ds, changed, t) =>
      .ok ({ f with Decls := ds }, changed, Node.file f :: Node.expr (.ident f.Name) :: t)

/-- The function `addLogs` with `parse` in the place of `parser.ParseExpr`: the flag
`changed` and the mutated file, or the panic. -/
def addLogsWith (parse : String → Except String CallExpr) (path : String) (f : File) :
    Except String (Bool × File) :=
  match inspectFile (callback parse path) f with
  | .error e => .error e
  | .ok (f1, changed, _) => .ok (changed, f1)

/-- What makes a run complete at a declaration: for a function declaration both texts
parse to calls and the body is present. -/
def Completes (parse : String → Except String CallExpr) (path : String) : Decl → Prop
  | .funcDecl fn =>
    ∃ call ret B, parse (loglineCall path fn) = .ok call
      ∧ parse (loglineReturn fn) = .ok ret ∧ fn.Body = some B
  | .genDecl _ => True

/-! ## Sample trees for the runs with arguments -/

/-- The entry call of `Add` under the path `add.go`. -/
def callAdd : CallExpr :=
  ⟨infof, [.basicLit "\"CALL>>> add.go:Add(a:%+v, b:%+v, )\"", .ident "a", .ident "b"]⟩

/-- The exit call of `Add`. -/
def retAdd : CallExpr := ⟨infof, [.basicLit "\"RET>>> %+v\"", .ident "sum"]⟩

/-- The file `fileAdd` after one run of `addLogs` with the path `add.go`. -/
def fileAddOnce : File :=
  { Name := "main",
    Decls := [.funcDecl { fnAdd with Body := some (
      [.exprStmt callAdd, .deferStmt retAdd, .other "sum = a + b", .other "return"]) }],
    Imports := [] }

/-- The file `fileAdd` after two runs of `addLogs` with the path `add.go`. -/
def fileAddTwice : File :=
  { Name := "main",
    Decls := [.funcDecl { fnAdd with Body := some (
      [.exprStmt callAdd, .deferStmt retAdd, .exprStmt callAdd, .deferStmt retAdd,
       .other "sum = a + b", .other "return"]) }],
    Imports := [] }

/-- The declaration `func g(n int) (r int) { return n }`. -/
def fnG : FuncDecl :=
  { Recv := none, Name := "g", Params := [⟨["n"], "int"⟩], Results := some [⟨["r"], "int"⟩],
    Body := some [.other "return n"] }

end LogTracer

open LogTracer

namespace LogTracer

/-! ## The scanner on a text split in two -/

theorem scan_append (st : Scan) (pre rest : List Char) :
    scan st (pre ++ rest) =
      match run st pre with
      | .error e => .error e
      | .ok (toks, st1) =>
        match scan st1 rest with
        | .error e => .error e
        | .ok r => .ok (toks ++ r) := by
  induction pre generalizing st with
  | nil =>
    simp only [List.nil_append, run, List.nil_append]
    generalize scan st rest = r
    cases r <;> rfl
  | cons c cs ih =>
    simp only [List.cons_append, scan, run]
    cases h : next st c with
    | error e => simp
    | ok p =>
      obtain ⟨toks, st1⟩ := p
      simp only [List.append_eq]
      rw [ih st1]
      cases h2 : run st1 cs with
      | error e => rfl
      | ok q =>
        obtain ⟨rest2, st2⟩ := q
        simp only [List.append_assoc]
        generalize scan st2 rest = r
        cases r <;> rfl

theorem run_append (st st1 st2 : Scan) (a b : List Char) (t1 t2 : List Token)
    (ha : run st a = .ok (t1, st1)) (hb : run st1 b = .ok (t2, st2)) :
    run st (a ++ b) = .ok (t1 ++ t2, st2) := by
  induction a generalizing st t1 with
  | nil =>
    simp only [run, Except.ok.injEq, Prod.mk.injEq] at ha
    obtain ⟨rfl, rfl⟩ := ha
    simpa using hb
  | cons c cs ih =>
    simp only [List.cons_append, run] at ha ⊢
    cases h : next st c with
    | error e => simp [h] at ha
    | ok p =>
      obtain ⟨toks, s1⟩ := p
      simp only [h] at ha ⊢
      cases h2 : run s1 cs with
      | error e => simp [h2] at ha
      | ok q =>
        obtain ⟨r, s2⟩ := q
        simp only [h2, Except.ok.injEq, Prod.mk.injEq] at ha
        obtain ⟨rfl, rfl⟩ := ha
        simp [ih s1 r h2, List.append_assoc]

theorem scan_of_run (st st1 : Scan) (cs : List Char) (toks : List Token)
    (h : run st cs = .ok (toks, st1)) (hf : finish st1 = .ok []) :
    scan st cs = .ok toks := by
  have := scan_append st cs []
  simp only [List.append_nil, h, scan, hf] at this
  simpa using this

/-! ## Characters -/

theorem not_illegal_of_plain (c : Char) (h : plainChar c = true) : illegalChar c = false := by
  simp only [plainChar, Bool.and_eq_true, Bool.not_eq_true'] at h
  exact h.2

theorem not_illegal_of_alnum (c : Char) (h : (isLetter c || isDecimal c) = true) :
    illegalChar c = false := by
  simp only [isLetter, isDecimal, illegalChar, Bool.or_eq_true, Bool.and_eq_true,
    decide_eq_true_eq, Bool.or_eq_false_iff, decide_eq_false_iff_not] at h ⊢
  omega

theorem plain_of_alnum (c : Char) (h : (isLetter c || isDecimal c) = true) :
    plainChar c = true := by
  have hi := not_illegal_of_alnum c h
  simp only [plainChar, hi, Bool.not_false, Bool.and_true, Bool.and_eq_true, Bool.not_eq_true',
    decide_eq_false_iff_not]
  refine ⟨⟨?_, ?_⟩, ?_⟩ <;> (intro hc; subst hc; revert h; decide)

/-! ## The scanner on the pieces of a synthesized text -/

theorem next_str_plain (acc : List Char) (c : Char) (h : plainChar c = true) :
    next (.str acc) c = .ok ([], .str (acc ++ [c])) := by
  have hi := not_illegal_of_plain c h
  simp only [plainChar, Bool.and_eq_true, Bool.not_eq_true', decide_eq_false_iff_not] at h
  simp [next, hi, h.1.1.1, h.1.1.2, h.1.2]

theorem run_str_plain (acc msg : List Char) (h : msg.all plainChar = true) :
    run (.str acc) msg = .ok ([], .str (acc ++ msg)) := by
  induction msg generalizing acc with
  | nil => simp [run]
  | cons c cs ih =>
    simp only [List.all_cons, Bool.and_eq_true] at h
    simp [run, next_str_plain acc c h.1, ih (acc ++ [c]) h.2]

theorem next_ident_alnum (acc : List Char) (c : Char)
    (h : (isLetter c || isDecimal c) = true) :
    next (.ident acc) c = .ok ([], .ident (acc ++ [c])) := by
  simp [next, not_illegal_of_alnum c h, h]

theorem run_ident_alnum (acc cs : List Char)
    (h : cs.all (fun d => isLetter d || isDecimal d) = true) :
    run (.ident acc) cs = .ok ([], .ident (acc ++ cs)) := by
  induction cs generalizing acc with
  | nil => simp [run]
  | cons c cs ih =>
    simp only [List.all_cons, Bool.and_eq_true] at h
    simp [run, next_ident_alnum acc c h.1, ih (acc ++ [c]) h.2]

theorem next_top_letter (b : Bool) (c : Char) (h : isLetter c = true) :
    next (.top b) c = .ok ([], .ident [c]) := by
  have hi : illegalChar c = false := not_illegal_of_alnum c (by simp [h])
  have h1 : c ≠ ' ' := by intro hc; subst hc; revert h; decide
  have h2 : c ≠ '\t' := by intro hc; subst hc; revert h; decide
  have h3 : c ≠ '\r' := by intro hc; subst hc; revert h; decide
  have h4 : c ≠ '\n' := by intro hc; subst hc; revert h; decide
  simp [next, topNext, hi, h1, h2, h3, h4, h]

theorem nameToken_of_identifier (n : String) (h : isIdentifier n = true) :
    nameToken n.toList = .ident n := by
  have hk : n ∉ keywords := by
    unfold isIdentifier at h
    split at h
    · simp at h
    · simp only [Bool.and_eq_true, Bool.not_eq_true', List.contains_eq_any_beq] at h
      intro hmem
      have := h.2
      simp only [List.any_eq_false, beq_iff_eq] at this
      exact this n hmem rfl
  have hn : String.mk n.toList = n := rfl
  simp [nameToken, hn, hk]

/-- The scanner over `name, ` between tokens: the identifier and the comma. -/
theorem run_name_comma (b : Bool) (n : String) (h : isIdentifier n = true) :
    run (.top b) (n.toList ++ ", ".toList) = .ok ([.ident n, .comma], .top false) := by
  have hid := nameToken_of_identifier n h
  unfold isIdentifier at h
  split at h
  · simp at h
  · rename_i c cs heq
    simp only [Bool.and_eq_true, Bool.not_eq_true'] at h
    have hrun : run (.top b) (c :: cs) = .ok ([], .ident (c :: cs)) := by
      have := run_ident_alnum [c] cs h.1.2
      simp [run, next_top_letter b c h.1.1, this]
    have htail : run (.ident (c :: cs)) ", ".toList
        = .ok ([nameToken (c :: cs), .comma], .top false) := by
      rfl
    have := run_append _ _ _ _ _ _ _ hrun htail
    rw [heq, this, ← heq, hid]
    rfl

/-- The scanner over the argument text `n1, n2, ..., nk, `. -/
theorem run_names (names : List String) (h : names.all isIdentifier = true) :
    run (.top false) (names.flatMap (fun n => n.toList ++ ", ".toList))
      = .ok (names.flatMap (fun n => [Token.ident n, .comma]), .top false) := by
  induction names with
  | nil => rfl
  | cons n ns ih =>
    simp only [List.all_cons, Bool.and_eq_true] at h
    simp only [List.flatMap_cons]
    exact run_append _ _ _ _ _ _ _ (run_name_comma false n h.1) (ih h.2)

/-- The parser over the tokens of `n1, n2, ..., nk, )`. -/
theorem parseArgs_names (names : List String) :
    parseArgs (names.flatMap (fun n => [Token.ident n, .comma]) ++ [.rparen])
      = some (names.map .ident, []) := by
  induction names with
  | nil => rfl
  | cons n ns ih =>
    simp only [List.flatMap_cons, List.cons_append, List.nil_append, List.map_cons]
    simp [parseArgs, ih]

/-- The scanner and parser over the text `logrus.Infof("msg", n1, ..., nk, )` with a
plain message and identifiers as names: the call with the literal and the names. -/
theorem parseExpr_of_shape (x msg : String) (names : List String)
    (hx : x.toList = "logrus.Infof(\"".toList ++ (msg.toList ++ ("\", ".toList
      ++ (names.flatMap (fun n => n.toList ++ ", ".toList) ++ ")".toList))))
    (hm : plainText msg = true) (hn : names.all isIdentifier = true) :
    parseExpr x = .ok (infofCall msg names) := by
  have h1 : run (.top false) "logrus.Infof(\"".toList
      = .ok ([.ident "logrus", .period, .ident "Infof", .lparen], .str "\"".toList) := by rfl
  have h2 := run_str_plain "\"".toList msg.toList hm
  have h3 : run (.str ("\"".toList ++ msg.toList)) "\", ".toList
      = .ok ([.string (String.mk ("\"".toList ++ msg.toList ++ "\"".toList)), .comma],
          .top false) := by rfl
  have h4 := run_names names hn
  have h5 : run (.top false) ")".toList = .ok ([.rparen], .top true) := by rfl
  have h45 := run_append _ _ _ _ _ _ _ h4 h5
  have h345 := run_append _ _ _ _ _ _ _ h3 h45
  have h2345 := run_append _ _ _ _ _ _ _ h2 h345
  have hall := run_append _ _ _ _ _ _ _ h1 h2345
  have hscan := scan_of_run _ _ _ _ hall rfl
  have hlit : String.mk ("\"".toList ++ msg.toList ++ "\"".toList) = "\"" ++ msg ++ "\"" := by
    apply String.ext
    simp [String.data_append]
  unfold parseExpr
  rw [hx, hscan, hlit]
  simp [parseCall, parseSelectors, parseArgs, parseArgs_names, infofCall, infof]

/-! ## The synthesized texts, character by character -/

theorem foldl_argStep_toList (names : List String) (acc : String × String) :
    ((names.foldl argStep acc).1.toList
        = acc.1.toList ++ (names.filter (fun n => !(n = "_"))).flatMap
            (fun n => n.toList ++ ":%+v, ".toList))
      ∧ ((names.foldl argStep acc).2.toList
        = acc.2.toList ++ (names.filter (fun n => !(n = "_"))).flatMap
            (fun n => n.toList ++ ", ".toList)) := by
  induction names generalizing acc with
  | nil => simp
  | cons n ns ih =>
    simp only [List.foldl_cons]
    by_cases hn : n = "_"
    · have hstep : argStep acc n = acc := by simp [argStep, hn]
      rw [hstep]
      simpa [List.filter_cons, hn] using ih acc
    · have hstep : argStep acc n = (acc.1 ++ (n ++ ":%+v, "), acc.2 ++ (n ++ ", ")) := by
        simp [argStep, hn]
      rw [hstep]
      have := ih (acc.1 ++ (n ++ ":%+v, "), acc.2 ++ (n ++ ", "))
      simp only [String.toList, String.data_append, List.append_assoc] at this ⊢
      simp [List.filter_cons, hn, this.1, this.2, List.flatMap_cons]

theorem foldl_fields_argStep_toList (fields : List Field) (acc : String × String) :
    ((fields.foldl (fun acc arg => arg.Names.foldl argStep acc) acc).1.toList
        = acc.1.toList ++ ((fieldNames fields).filter (fun n => !(n = "_"))).flatMap
            (fun n => n.toList ++ ":%+v, ".toList))
      ∧ ((fields.foldl (fun acc arg => arg.Names.foldl argStep acc) acc).2.toList
        = acc.2.toList ++ ((fieldNames fields).filter (fun n => !(n = "_"))).flatMap
            (fun n => n.toList ++ ", ".toList)) := by
  induction fields generalizing acc with
  | nil => simp [fieldNames]
  | cons fl fls ih =>
    simp only [List.foldl_cons]
    have h1 := foldl_argStep_toList fl.Names acc
    have h2 := ih (fl.Names.foldl argStep acc)
    have hnames : fieldNames (fl :: fls) = fl.Names ++ fieldNames fls := by
      simp [fieldNames, List.flatMap_cons]
    rw [hnames, h2.1, h2.2, h1.1, h1.2]
    simp [List.filter_append, List.flatMap_append, List.append_assoc]

theorem foldl_retStep_toList (names : List String) (acc : String × String) :
    ((names.foldl retStep acc).1.toList
        = acc.1.toList ++ names.flatMap (fun _ => "%+v".toList))
      ∧ ((names.foldl retStep acc).2.toList
        = acc.2.toList ++ names.flatMap (fun n => n.toList ++ ", ".toList)) := by
  induction names generalizing acc with
  | nil => simp
  | cons n ns ih =>
    simp only [List.foldl_cons]
    have := ih (retStep acc n)
    simp only [retStep, String.toList, String.data_append, List.append_assoc] at this ⊢
    simp [this.1, this.2, List.flatMap_cons]

theorem foldl_fields_retStep_toList (fields : List Field) (acc : String × String) :
    ((fields.foldl (fun acc ret => ret.Names.foldl retStep acc) acc).1.toList
        = acc.1.toList ++ (fieldNames fields).flatMap (fun _ => "%+v".toList))
      ∧ ((fields.foldl (fun acc ret => ret.Names.foldl retStep acc) acc).2.toList
        = acc.2.toList ++ (fieldNames fields).flatMap (fun n => n.toList ++ ", ".toList)) := by
  induction fields generalizing acc with
  | nil => simp [fieldNames]
  | cons fl fls ih =>
    simp only [List.foldl_cons]
    have h1 := foldl_retStep_toList fl.Names acc
    have h2 := ih (fl.Names.foldl retStep acc)
    have hnames : fieldNames (fl :: fls) = fl.Names ++ fieldNames fls := by
      simp [fieldNames, List.flatMap_cons]
    rw [hnames, h2.1, h2.2, h1.1, h1.2]
    simp [List.flatMap_append, List.append_assoc]

/-- The two strings of the parameter loops, as character lists. -/
theorem argsStrings_toList (fn : FuncDecl) :
    (argsStrings fn.Params).1.toList
        = (paramNames fn).flatMap (fun n => n.toList ++ ":%+v, ".toList)
      ∧ (argsStrings fn.Params).2.toList
        = (paramNames fn).flatMap (fun n => n.toList ++ ", ".toList) := by
  have := foldl_fields_argStep_toList fn.Params ("", "")
  simpa [argsStrings, paramNames] using this

/-- The two strings of the result loops, as character lists. -/
theorem retStrings_toList (fn : FuncDecl) :
    (retStrings fn.Results).1.toList = (resultNames fn).flatMap (fun _ => "%+v".toList)
      ∧ (retStrings fn.Results).2.toList
        = (resultNames fn).flatMap (fun n => n.toList ++ ", ".toList) := by
  unfold retStrings resultNames
  cases fn.Results with
  | none => simp
  | some l =>
    have := foldl_fields_retStep_toList l ("", "")
    simpa using this

/-! ## The synthesized texts parse when the path is plain -/

theorem plain_of_identifier (n : String) (h : isIdentifier n = true) :
    n.toList.all plainChar = true := by
  unfold isIdentifier at h
  split at h
  · simp at h
  · rename_i c cs heq
    simp only [Bool.and_eq_true, Bool.not_eq_true'] at h
    rw [heq, List.all_cons, Bool.and_eq_true]
    refine ⟨plain_of_alnum c (by simp [h.1.1]), ?_⟩
    rw [List.all_eq_true]
    intro d hd
    exact plain_of_alnum d (List.all_eq_true.mp h.1.2 d hd)

theorem plain_flatMap (names : List String) (sep : List Char)
    (hn : names.all isIdentifier = true) (hs : sep.all plainChar = true) :
    (names.flatMap (fun n => n.toList ++ sep)).all plainChar = true := by
  induction names with
  | nil => rfl
  | cons n ns ih =>
    simp only [List.all_cons, Bool.and_eq_true] at hn
    simp only [List.flatMap_cons, List.all_append, Bool.and_eq_true]
    exact ⟨⟨plain_of_identifier n hn.1, hs⟩, ih hn.2⟩

theorem paramNames_identifiers (fn : FuncDecl) (h : wellNamed fn = true) :
    (paramNames fn).all isIdentifier = true := by
  simp only [wellNamed, Bool.and_eq_true] at h
  rw [List.all_eq_true] at h ⊢
  intro n hn
  exact h.1.2 n (List.mem_filter.mp hn).1

theorem plainText_callMessage (path : String) (fn : FuncDecl)
    (hp : plainText path = true) (hn : wellNamed fn = true) :
    plainText (callMessage path fn) = true := by
  have hnames := paramNames_identifiers fn hn
  simp only [wellNamed, Bool.and_eq_true] at hn
  have h1 := plain_of_identifier fn.Name hn.1.1
  have h2 := plain_flatMap (paramNames fn) ":%+v, ".toList hnames (by decide)
  have hpre : "CALL>>> ".toList.all plainChar = true := by decide
  have hcolon : ":".toList.all plainChar = true := by decide
  have hopen : "(".toList.all plainChar = true := by decide
  have hclose : ")".toList.all plainChar = true := by decide
  unfold plainText at hp ⊢
  have htext : (callMessage path fn).toList = "CALL>>> ".toList ++ (path.toList ++ (":".toList
      ++ (fn.Name.toList ++ ("(".toList ++ ((paramNames fn).flatMap
        (fun n => n.toList ++ ":%+v, ".toList) ++ ")".toList))))) := by
    rw [← (argsStrings_toList fn).1]
    simp only [callMessage, prefixCall, String.toList, String.data_append, List.append_assoc]
    rfl
  rw [htext]
  simp only [List.all_append, Bool.and_eq_true]
  exact ⟨hpre, hp, hcolon, h1, hopen, h2, hclose⟩

theorem plainText_returnMessage (fn : FuncDecl) : plainText (returnMessage fn) = true := by
  unfold plainText
  have htext : (returnMessage fn).toList
      = "RET>>> ".toList ++ (resultNames fn).flatMap (fun _ => "%+v".toList) := by
    rw [← (retStrings_toList fn).1]
    simp only [returnMessage, prefixReturn, String.toList, String.data_append]
    rfl
  rw [htext, List.all_append, Bool.and_eq_true]
  refine ⟨by decide, ?_⟩
  generalize resultNames fn = names
  induction names with
  | nil => rfl
  | cons n ns ih =>
    simp only [List.flatMap_cons, List.all_append, Bool.and_eq_true]
    exact ⟨by decide, ih⟩

/-- The entry text of a well-named declaration under a plain path parses to the call
with the message `callMessage` and the parameter names (without `_`) in order. -/
theorem parseExpr_loglineCall (path : String) (fn : FuncDecl)
    (hp : plainText path = true) (hn : wellNamed fn = true) :
    parseExpr (loglineCall path fn) = .ok (infofCall (callMessage path fn) (paramNames fn)) := by
  apply parseExpr_of_shape _ _ _ _ (plainText_callMessage path fn hp hn)
    (paramNames_identifiers fn hn)
  rw [← (argsStrings_toList fn).2]
  simp only [loglineCall, callMessage, String.toList, String.data_append, List.append_assoc]
  rfl

/-- The exit text of a well-named declaration parses to the call with the message
`returnMessage` and all result names in order. -/
theorem parseExpr_loglineReturn (fn : FuncDecl) (hn : wellNamed fn = true) :
    parseExpr (loglineReturn fn) = .ok (infofCall (returnMessage fn) (resultNames fn)) := by
  have hres : (resultNames fn).all isIdentifier = true := by
    simp only [wellNamed, Bool.and_eq_true] at hn
    exact hn.2
  apply parseExpr_of_shape _ _ _ _ (plainText_returnMessage fn) hres
  rw [← (retStrings_toList fn).2]
  simp only [loglineReturn, returnMessage, String.toList, String.data_append, List.append_assoc]

/-- For a plain path, a well-named declaration and a present body, `addLogsFunc`
returns the declaration with the two trace statements put before the body. -/
theorem addLogsFunc_plain (path : String) (fn : FuncDecl) (B : List Stmt)
    (hp : plainText path = true) (hn : wellNamed fn = true) (hB : fn.Body = some B) :
    addLogsFunc path fn = .ok { fn with Body := some (
      .exprStmt (infofCall (callMessage path fn) (paramNames fn))
        :: .deferStmt (infofCall (returnMessage fn) (resultNames fn)) :: B) } := by
  unfold addLogsFunc
  rw [parseExpr_loglineCall path fn hp hn, parseExpr_loglineReturn fn hn]
  simp only [hB]

/-! ## `addLogs` over a file -/

theorem addLogsFunc_shape (path : String) (fn fn1 : FuncDecl)
    (h : addLogsFunc path fn = .ok fn1) :
    ∃ call ret B, parseExpr (loglineCall path fn) = .ok call
      ∧ parseExpr (loglineReturn fn) = .ok ret ∧ fn.Body = some B
      ∧ fn1 = { fn with Body := some ([.exprStmt call, .deferStmt ret] ++ B) } := by
  unfold addLogsFunc at h
  cases h1 : parseExpr (loglineCall path fn) with
  | error e => simp only [h1, reduceCtorEq] at h
  | ok call =>
    cases h2 : parseExpr (loglineReturn fn) with
    | error e => simp only [h1, h2, reduceCtorEq] at h
    | ok ret =>
      cases h3 : fn.Body with
      | none => simp only [h1, h2, h3, reduceCtorEq] at h
      | some B =>
        simp only [h1, h2, h3, Except.ok.injEq] at h
        exact ⟨call, ret, B, rfl, rfl, rfl, by rw [← h]; rfl⟩

theorem inspectDecls_shape (visit : FuncDecl → Except String FuncDecl)
    (ds ds1 : List Decl) (c : Bool) (h : inspectDecls visit ds = .ok (c, ds1)) :
    ds1.length = ds.length ∧
    ∀ (i : Nat) (fn : FuncDecl), ds[i]? = some (Decl.funcDecl fn) →
      ∃ fn1, visit fn = .ok fn1 ∧ ds1[i]? = some (Decl.funcDecl fn1) := by
  induction ds generalizing ds1 c with
  | nil =>
    simp only [inspectDecls, Except.ok.injEq, Prod.mk.injEq] at h
    obtain ⟨-, rfl⟩ := h
    refine ⟨rfl, ?_⟩
    intro i fn hi
    simp only [List.getElem?_nil, reduceCtorEq] at hi
  | cons d ds ih =>
    cases d with
    | funcDecl fn0 =>
      simp only [inspectDecls] at h
      cases h1 : visit fn0 with
      | error e => simp only [h1, reduceCtorEq] at h
      | ok fn1 =>
        cases h2 : inspectDecls visit ds with
        | error e => simp only [h1, h2, reduceCtorEq] at h
        | ok r =>
          obtain ⟨c2, ds2⟩ := r
          simp only [h1, h2, Except.ok.injEq, Prod.mk.injEq] at h
          obtain ⟨-, rfl⟩ := h
          obtain ⟨hlen, hidx⟩ := ih ds2 c2 h2
          refine ⟨by simp [hlen], ?_⟩
          intro i fn hi
          cases i with
          | zero =>
            simp only [List.getElem?_cons_zero, Option.some.injEq, Decl.funcDecl.injEq] at hi
            subst hi
            exact ⟨fn1, h1, by simp only [List.getElem?_cons_zero]⟩
          | succ j =>
            simp only [List.getElem?_cons_succ] at hi ⊢
            exact hidx j fn hi
    | genDecl g =>
      simp only [inspectDecls] at h
      cases h2 : inspectDecls visit ds with
      | error e => simp only [h2, reduceCtorEq] at h
      | ok r =>
        obtain ⟨c2, ds2⟩ := r
        simp only [h2, Except.ok.injEq, Prod.mk.injEq] at h
        obtain ⟨-, rfl⟩ := h
        obtain ⟨hlen, hidx⟩ := ih ds2 c2 h2
        refine ⟨by simp [hlen], ?_⟩
        intro i fn hi
        cases i with
        | zero => simp only [List.getElem?_cons_zero, Option.some.injEq, reduceCtorEq] at hi
        | succ j =>
          simp only [List.getElem?_cons_succ] at hi ⊢
          exact hidx j fn hi

theorem inspectDecls_completes (visit : FuncDecl → Except String FuncDecl) (ds : List Decl)
    (h : ∀ fn, Decl.funcDecl fn ∈ ds → ∃ fn1, visit fn = .ok fn1) :
    ∃ c ds1, inspectDecls visit ds = .ok (c, ds1) := by
  induction ds with
  | nil => exact ⟨false, [], rfl⟩
  | cons d ds ih =>
    obtain ⟨c, ds1, hrest⟩ := ih (fun fn hfn => h fn (List.mem_cons_of_mem _ hfn))
    cases d with
    | funcDecl fn =>
      obtain ⟨fn1, h1⟩ := h fn (List.mem_cons_self _ _)
      exact ⟨true, Decl.funcDecl fn1 :: ds1, by simp only [inspectDecls, h1, hrest]⟩
    | genDecl g => exact ⟨c, Decl.genDecl g :: ds1, by simp only [inspectDecls, hrest]⟩

theorem addLogs_completes (path : String) (f : File)
    (hp : plainText path = true) (hds : f.Decls.all instrumentable = true) :
    ∃ c f1, addLogs path f = .ok (c, f1) := by
  have : ∃ c ds1, inspectDecls (addLogsFunc path) f.Decls = .ok (c, ds1) := by
    apply inspectDecls_completes
    intro fn hfn
    have hd := List.all_eq_true.mp hds _ hfn
    simp only [instrumentable, Bool.and_eq_true, Option.isSome_iff_exists] at hd
    obtain ⟨hn, B, hB⟩ := hd
    exact ⟨_, addLogsFunc_plain path fn B hp hn hB⟩
  obtain ⟨c, ds1, h⟩ := this
  exact ⟨c, { f with Decls := ds1 }, by simp only [addLogs, h]⟩

/-! ## `addImport` -/

theorem importsOf_of_no_import (ds : List Decl) (h : ds.any isImportDecl = false) :
    importsOf ds = [] := by
  induction ds with
  | nil => rfl
  | cons d ds ih =>
    simp only [List.any_cons, Bool.or_eq_false_iff] at h
    cases d with
    | funcDecl fn => simpa [importsOf] using ih h.2
    | genDecl g =>
      have hg : ¬ g.Tok = Tok.IMPORT := by simpa [isImportDecl] using h.1
      simp [importsOf, hg, ih h.2]

theorem map_appendImport_of_no_import (ds : List Decl) (h : ds.any isImportDecl = false) :
    ds.map appendImport = ds := by
  induction ds with
  | nil => rfl
  | cons d ds ih =>
    simp only [List.any_cons, Bool.or_eq_false_iff] at h
    cases d with
    | funcDecl fn => simp [appendImport, ih h.2]
    | genDecl g =>
      have hg : ¬ g.Tok = Tok.IMPORT := by simpa [isImportDecl] using h.1
      simp [appendImport, hg, ih h.2]

theorem unaliasedSpecs_pos_iff (specs : List Spec) :
    hasLogrusImport (specs.filterMap (fun s => match s with
      | .importSpec i => some i
      | .otherSpec _ => none)) = true ↔ 0 < unaliasedSpecs specs := by
  induction specs with
  | nil => simp [hasLogrusImport, unaliasedSpecs]
  | cons sp sps ih =>
    unfold hasLogrusImport unaliasedSpecs at ih ⊢
    cases sp with
    | otherSpec src => simpa [List.filterMap_cons, List.countP_cons] using ih
    | importSpec i =>
      by_cases hi : (i.Path = logrusImportPath && i.Name.isNone) = true
      · simp [List.filterMap_cons, List.countP_cons, hi]
      · simp only [List.filterMap_cons, List.any_cons, hi, Bool.false_or, List.countP_cons]
        simpa using ih

theorem hasLogrusImport_append (a b : List ImportSpec) :
    hasLogrusImport (a ++ b) = (hasLogrusImport a || hasLogrusImport b) := by
  simp [hasLogrusImport, List.any_append]

theorem hasLogrusImport_importsOf (ds : List Decl) :
    hasLogrusImport (importsOf ds) = true ↔ 0 < unaliasedCount ds := by
  induction ds with
  | nil => simp [importsOf, hasLogrusImport, unaliasedCount]
  | cons d ds ih =>
    cases d with
    | funcDecl fn => simpa [importsOf, unaliasedCount] using ih
    | genDecl g =>
      simp only [importsOf, unaliasedCount, hasLogrusImport_append, Bool.or_eq_true, ih]
      by_cases hg : g.Tok = Tok.IMPORT
      · simp only [hg, if_true, unaliasedSpecs_pos_iff]
        omega
      · simp [hg, hasLogrusImport]

theorem unaliasedCount_map_appendImport (ds : List Decl) :
    unaliasedCount (ds.map appendImport) = unaliasedCount ds + importDeclCount ds := by
  induction ds with
  | nil => rfl
  | cons d ds ih =>
    cases d with
    | funcDecl fn =>
      simp only [List.map_cons, appendImport, unaliasedCount, ih, importDeclCount,
        List.countP_cons, isImportDecl]
      simp
    | genDecl g =>
      by_cases hg : g.Tok = Tok.IMPORT
      · have hnew : unaliasedSpecs (g.Specs ++ [Spec.importSpec newImport])
            = unaliasedSpecs g.Specs + 1 := by
          simp [unaliasedSpecs, List.countP_append, newImport]
        simp only [List.map_cons, appendImport, hg, if_true, unaliasedCount, hnew, ih,
          importDeclCount, List.countP_cons, isImportDecl, decide_True]
        omega
      · simp only [List.map_cons, appendImport, hg, if_false, unaliasedCount, ih,
          importDeclCount, List.countP_cons, isImportDecl]
        simp

theorem importDeclCount_pos_iff (ds : List Decl) :
    ds.any isImportDecl = true ↔ 0 < importDeclCount ds := by
  simp [importDeclCount, List.countP_pos_iff]

/-! ## Placeholders of the two messages -/

theorem operandsFrom_text_skip (cs rest : List Char)
    (h : cs.all (fun c => !(c = '%')) = true) :
    operandsFrom .text (cs ++ rest) = operandsFrom .text rest := by
  induction cs with
  | nil => rfl
  | cons c cs ih =>
    simp only [List.all_cons, Bool.and_eq_true, Bool.not_eq_true', decide_eq_false_iff_not] at h
    simp only [List.cons_append, operandsFrom, h.1, if_false]
    exact ih (by simpa using h.2)

theorem noPercent_of_identifier (n : String) (h : isIdentifier n = true) :
    n.toList.all (fun c => !(c = '%')) = true := by
  have hplain := plain_of_identifier n h
  unfold isIdentifier at h
  split at h
  · simp at h
  · rename_i c cs heq
    simp only [Bool.and_eq_true, Bool.not_eq_true'] at h
    have hal : ∀ d, (isLetter d || isDecimal d) = true → (!(decide (d = '%'))) = true := by
      intro d hd
      simp only [Bool.not_eq_true', decide_eq_false_iff_not]
      intro hc
      subst hc
      revert hd
      decide
    rw [heq, List.all_cons, Bool.and_eq_true]
    refine ⟨hal c (by simp [h.1.1]), ?_⟩
    rw [List.all_eq_true]
    intro d hd
    exact hal d (List.all_eq_true.mp h.1.2 d hd)

theorem operandsFrom_pairs (names : List String) (rest : List Char)
    (h : names.all isIdentifier = true) :
    operandsFrom .text (names.flatMap (fun n => n.toList ++ ":%+v, ".toList) ++ rest)
      = names.length + operandsFrom .text rest := by
  induction names with
  | nil => simp
  | cons n ns ih =>
    simp only [List.all_cons, Bool.and_eq_true] at h
    simp only [List.flatMap_cons, List.append_assoc, List.length_cons]
    rw [operandsFrom_text_skip _ _ (noPercent_of_identifier n h.1)]
    have hverb : ∀ X, operandsFrom .text (":%+v, ".toList ++ X) = 1 + operandsFrom .text X := by
      intro X
      rfl
    rw [hverb, ih h.2]
    omega

theorem operandsFrom_verbs (names : List String) :
    operandsFrom .text (names.flatMap (fun _ => "%+v".toList)) = names.length := by
  induction names with
  | nil => rfl
  | cons n ns ih =>
    have hverb : ∀ X, operandsFrom .text ("%+v".toList ++ X) = 1 + operandsFrom .text X := by
      intro X
      rfl
    simp only [List.flatMap_cons, List.length_cons]
    rw [hverb, ih]
    omega

/-- When neither the path nor a name holds a percent sign, the entry message has one
placeholder per logged parameter. -/
theorem operands_callMessage (path : String) (fn : FuncDecl)
    (hp : noPercent path = true) (hn : wellNamed fn = true) :
    operands (callMessage path fn) = (paramNames fn).length := by
  have hnames := paramNames_identifiers fn hn
  simp only [wellNamed, Bool.and_eq_true] at hn
  have htext : (callMessage path fn).toList = "CALL>>> ".toList ++ (path.toList ++ (":".toList
      ++ (fn.Name.toList ++ ("(".toList ++ ((paramNames fn).flatMap
        (fun n => n.toList ++ ":%+v, ".toList) ++ ")".toList))))) := by
    rw [← (argsStrings_toList fn).1]
    simp only [callMessage, prefixCall, String.toList, String.data_append, List.append_assoc]
    rfl
  unfold operands
  rw [htext, operandsFrom_text_skip _ _ (by decide), operandsFrom_text_skip _ _ hp,
    operandsFrom_text_skip _ _ (by decide),
    operandsFrom_text_skip _ _ (noPercent_of_identifier fn.Name hn.1.1),
    operandsFrom_text_skip _ _ (by decide), operandsFrom_pairs _ _ hnames]
  rfl

/-- The exit message has one placeholder per result name. -/
theorem operands_returnMessage (fn : FuncDecl) :
    operands (returnMessage fn) = (resultNames fn).length := by
  have htext : (returnMessage fn).toList
      = "RET>>> ".toList ++ (resultNames fn).flatMap (fun _ => "%+v".toList) := by
    rw [← (retStrings_toList fn).1]
    simp only [returnMessage, prefixReturn, String.toList, String.data_append]
    rfl
  unfold operands
  rw [htext, operandsFrom_text_skip _ _ (by decide), operandsFrom_verbs]

/-! ## The traversal node by node, for every parser -/

theorem addLogsFuncWith_shape (parse : String → Except String CallExpr) (path : String)
    (fn fn1 : FuncDecl) (h : addLogsFuncWith parse path fn = .ok fn1) :
    ∃ call ret B, parse (loglineCall path fn) = .ok call
      ∧ parse (loglineReturn fn) = .ok ret ∧ fn.Body = some B
      ∧ fn1 = { fn with Body := some ([.exprStmt call, .deferStmt ret] ++ B) } := by
  unfold addLogsFuncWith at h
  cases h1 : parse (loglineCall path fn) with
  | error e => simp only [h1, reduceCtorEq] at h
  | ok call =>
    cases h2 : parse (loglineReturn fn) with
    | error e => simp only [h1, h2, reduceCtorEq] at h
    | ok ret =>
      cases h3 : fn.Body with
      | none => simp only [h1, h2, h3, reduceCtorEq] at h
      | some B =>
        simp only [h1, h2, h3, Except.ok.injEq] at h
        exact ⟨call, ret, B, rfl, rfl, rfl, by rw [← h]; rfl⟩

/-- The branch for a function declaration completes exactly when both texts parse to
calls and the body is present. -/
theorem addLogsFuncWith_ok_iff (parse : String → Except String CallExpr) (path : String)
    (fn : FuncDecl) :
    (∃ fn1, addLogsFuncWith parse path fn = .ok fn1) ↔ Completes parse path (.funcDecl fn) := by
  constructor
  · rintro ⟨fn1, h⟩
    obtain ⟨call, ret, B, hc, hr, hB, -⟩ := addLogsFuncWith_shape parse path fn fn1 h
    exact ⟨call, ret, B, hc, hr, hB⟩
  · rintro ⟨call, ret, B, hc, hr, hB⟩
    exact ⟨{ fn with Body := some (.exprStmt call :: .deferStmt ret :: B) },
      by simp only [addLogsFuncWith, hc, hr, hB]⟩

/-- The concrete run is the run with the model `parseExpr` as the parser. -/
theorem addLogsFunc_eq_with (path : String) :
    addLogsFunc path = addLogsFuncWith parseExpr path := by
  funext fn
  rfl

theorem nodesOfExpr_no_func (e : Expr) :
    ∀ n ∈ nodesOfExpr e, isFuncDeclNode n = false := by
  induction e with
  | ident name => intro n hn; simp only [nodesOfExpr, List.mem_singleton] at hn; subst hn; rfl
  | basicLit value =>
    intro n hn; simp only [nodesOfExpr, List.mem_singleton] at hn; subst hn; rfl
  | other src => intro n hn; simp only [nodesOfExpr, List.mem_singleton] at hn; subst hn; rfl
  | selector x sel ih =>
    intro n hn
    simp only [nodesOfExpr, List.mem_cons, List.mem_append, List.not_mem_nil, or_false] at hn
    rcases hn with rfl | hn | rfl
    · rfl
    · exact ih n hn
    · rfl

theorem flatMap_no_func {α : Type} (g : α → List Node) (l : List α)
    (h : ∀ a, ∀ n ∈ g a, isFuncDeclNode n = false) :
    ∀ n ∈ l.flatMap g, isFuncDeclNode n = false := by
  intro n hn
  obtain ⟨a, -, ha⟩ := List.mem_flatMap.mp hn
  exact h a n ha

theorem nodesOfCall_no_func (c : CallExpr) :
    ∀ n ∈ nodesOfCall c, isFuncDeclNode n = false := by
  intro n hn
  simp only [nodesOfCall, List.mem_cons, List.mem_append] at hn
  rcases hn with rfl | hn | hn
  · rfl
  · exact nodesOfExpr_no_func _ n hn
  · exact flatMap_no_func nodesOfExpr c.Args nodesOfExpr_no_func n hn

theorem nodesOfStmt_no_func (s : Stmt) :
    ∀ n ∈ nodesOfStmt s, isFuncDeclNode n = false := by
  intro n hn
  cases s with
  | exprStmt x =>
    simp only [nodesOfStmt, List.mem_cons] at hn
    rcases hn with rfl | hn
    · rfl
    · exact nodesOfCall_no_func x n hn
  | deferStmt c =>
    simp only [nodesOfStmt, List.mem_cons] at hn
    rcases hn with rfl | hn
    · rfl
    · exact nodesOfCall_no_func c n hn
  | other src =>
    simp only [nodesOfStmt, List.mem_singleton] at hn
    subst hn
    rfl

theorem nodesOfField_no_func (fl : Field) :
    ∀ n ∈ nodesOfField fl, isFuncDeclNode n = false := by
  intro n hn
  simp only [nodesOfField, List.mem_cons, List.mem_append, List.mem_map,
    List.not_mem_nil, or_false] at hn
  rcases hn with rfl | ⟨a, -, rfl⟩ | rfl <;> rfl

theorem nodesOfFieldList_no_func (l : List Field) :
    ∀ n ∈ nodesOfFieldList l, isFuncDeclNode n = false := by
  intro n hn
  simp only [nodesOfFieldList, List.mem_cons] at hn
  rcases hn with rfl | hn
  · rfl
  · exact flatMap_no_func nodesOfField l nodesOfField_no_func n hn

/-- No node below a function declaration is a function declaration: the statements of a
body, the inserted ones among them, hold calls and expressions only. -/
theorem nodesBelowFunc_no_func (fn : FuncDecl) :
    ∀ n ∈ nodesBelowFunc fn, isFuncDeclNode n = false := by
  intro n hn
  simp only [nodesBelowFunc, List.mem_cons, List.mem_append] at hn
  rcases hn with hn | rfl | rfl | hn | hn | hn
  · cases hrecv : fn.Recv with
    | none => simp only [hrecv, List.not_mem_nil] at hn
    | some l => rw [hrecv] at hn; exact nodesOfFieldList_no_func l n hn
  · rfl
  · rfl
  · exact nodesOfFieldList_no_func _ n hn
  · cases hres : fn.Results with
    | none => simp only [hres, List.not_mem_nil] at hn
    | some l => rw [hres] at hn; exact nodesOfFieldList_no_func l n hn
  · cases hbody : fn.Body with
    | none => simp only [hbody, List.not_mem_nil] at hn
    | some l =>
      rw [hbody] at hn
      simp only [List.mem_cons] at hn
      rcases hn with rfl | hn
      · rfl
      · exact flatMap_no_func nodesOfStmt l nodesOfStmt_no_func n hn

theorem nodesOfSpec_no_func (sp : Spec) :
    ∀ n ∈ nodesOfSpec sp, isFuncDeclNode n = false := by
  intro n hn
  cases sp with
  | otherSpec src =>
    simp only [nodesOfSpec, List.mem_singleton] at hn
    subst hn
    rfl
  | importSpec i =>
    simp only [nodesOfSpec, List.mem_cons, List.mem_append, List.not_mem_nil, or_false] at hn
    rcases hn with rfl | hn | rfl
    · rfl
    · cases hname : i.Name with
      | none => simp only [hname, List.not_mem_nil] at hn
      | some a =>
        rw [hname] at hn
        simp only [List.mem_singleton] at hn
        subst hn
        rfl
    · rfl

theorem nodesBelowGen_no_func (g : GenDecl) :
    ∀ n ∈ nodesBelowGen g, isFuncDeclNode n = false :=
  flatMap_no_func nodesOfSpec g.Specs nodesOfSpec_no_func

/-- On nodes that are no function declaration the callback of `addLogs` does not panic
(and changes nothing): walking them goes through. -/
theorem callbacks_callback (parse : String → Except String CallExpr) (path : String)
    (nodes : List Node) (h : ∀ n ∈ nodes, isFuncDeclNode n = false) :
    callbacks (callback parse path) nodes = .ok () := by
  induction nodes with
  | nil => rfl
  | cons n ns ih =>
    have hn : callback parse path n = .ok none := by
      have h0 := h n (List.mem_cons_self _ _)
      cases n with
      | funcDecl fn => simp [isFuncDeclNode] at h0
      | _ => rfl
    simp only [callbacks, hn]
    exact ih (fun m hm => h m (List.mem_cons_of_mem _ hm))

/-- The walk at a function declaration with the callback of `addLogs`: the branch of
the callback runs once, on the declaration; the nodes below the declaration, read after
the callback with the two new statements in the body, go through unchanged. -/
theorem walkDecl_callback_func (parse : String → Except String CallExpr) (path : String)
    (fn : FuncDecl) :
    walkDecl (callback parse path) (.funcDecl fn)
      = match addLogsFuncWith parse path fn with
        | .error e => .error e
        | .ok fn1 => .ok (.funcDecl fn1, true, Node.funcDecl fn :: nodesBelowFunc fn1) := by
  cases h : addLogsFuncWith parse path fn with
  | error e => simp only [walkDecl, callback, h]
  | ok fn1 =>
    simp only [walkDecl, callback, h, Option.getD_some, Option.isSome_some,
      callbacks_callback parse path _ (nodesBelowFunc_no_func fn1)]

theorem walkDecl_callback_gen (parse : String → Except String CallExpr) (path : String)
    (g : GenDecl) :
    walkDecl (callback parse path) (.genDecl g)
      = .ok (.genDecl g, false, Node.genDecl g :: nodesBelowGen g) := by
  simp only [walkDecl, callback, callbacks_callback parse path _ (nodesBelowGen_no_func g)]

/-- The walk over the declarations gives the flag and the declarations that the
declaration-by-declaration run `inspectDecls` gives. -/
theorem walkDecls_of_inspectDecls_ok (parse : String → Except String CallExpr)
    (path : String) (ds ds1 : List Decl) (c : Bool)
    (h : inspectDecls (addLogsFuncWith parse path) ds = .ok (c, ds1)) :
    ∃ t, walkDecls (callback parse path) ds = .ok (ds1, c, t) := by
  induction ds generalizing ds1 c with
  | nil =>
    simp only [inspectDecls, Except.ok.injEq, Prod.mk.injEq] at h
    obtain ⟨rfl, rfl⟩ := h
    exact ⟨[], rfl⟩
  | cons d ds ih =>
    cases d with
    | funcDecl fn0 =>
      simp only [inspectDecls] at h
      cases h1 : addLogsFuncWith parse path fn0 with
      | error e => simp only [h1, reduceCtorEq] at h
      | ok fn1 =>
        cases h2 : inspectDecls (addLogsFuncWith parse path) ds with
        | error e => simp only [h1, h2, reduceCtorEq] at h
        | ok r =>
          obtain ⟨c2, ds2⟩ := r
          simp only [h1, h2, Except.ok.injEq, Prod.mk.injEq] at h
          obtain ⟨rfl, rfl⟩ := h
          obtain ⟨t, ht⟩ := ih ds2 c2 h2
          exact ⟨_, by simp only [walkDecls, walkDecl_callback_func, h1, ht, Bool.true_or]; rfl⟩
    | genDecl g =>
      simp only [inspectDecls] at h
      cases h2 : inspectDecls (addLogsFuncWith parse path) ds with
      | error e => simp only [h2, reduceCtorEq] at h
      | ok r =>
        obtain ⟨c2, ds2⟩ := r
        simp only [h2, Except.ok.injEq, Prod.mk.injEq] at h
        obtain ⟨rfl, rfl⟩ := h
        obtain ⟨t, ht⟩ := ih ds2 c2 h2
        exact ⟨_, by simp only [walkDecls, walkDecl_callback_gen, ht, Bool.false_or]; rfl⟩

theorem walkDecls_of_inspectDecls_error (parse : String → Except String CallExpr)
    (path : String) (ds : List Decl) (e : String)
    (h : inspectDecls (addLogsFuncWith parse path) ds = .error e) :
    walkDecls (callback parse path) ds = .error e := by
  induction ds with
  | nil => simp only [inspectDecls, reduceCtorEq] at h
  | cons d ds ih =>
    cases d with
    | funcDecl fn0 =>
      simp only [inspectDecls] at h
      cases h1 : addLogsFuncWith parse path fn0 with
      | error e1 =>
        simp only [h1, Except.error.injEq] at h
        simp only [walkDecls, walkDecl_callback_func, h1, h]
      | ok fn1 =>
        cases h2 : inspectDecls (addLogsFuncWith parse path) ds with
        | error e2 =>
          simp only [h1, h2, Except.error.injEq] at h
          simp only [walkDecls, walkDecl_callback_func, h1, ih (h ▸ h2)]
        | ok r =>
          obtain ⟨c2, ds2⟩ := r
          simp only [h1, h2, reduceCtorEq] at h
    | genDecl g =>
      simp only [inspectDecls] at h
      cases h2 : inspectDecls (addLogsFuncWith parse path) ds with
      | error e2 =>
        simp only [h2, Except.error.injEq] at h
        simp only [walkDecls, walkDecl_callback_gen, ih (h ▸ h2)]
      | ok r =>
        obtain ⟨c2, ds2⟩ := r
        simp only [h2, reduceCtorEq] at h

/-- The run of `addLogs` node by node is the run declaration by declaration: the
traversal of the nodes below a declaration, the inserted statements among them, adds
nothing and stops nothing. -/
theorem addLogsWith_eq (parse : String → Except String CallExpr) (path : String) (f : File) :
    addLogsWith parse path f
      = match inspectDecls (addLogsFuncWith parse path) f.Decls with
        | .error e => .error e
        | .ok (c, ds) => .ok (c, { f with Decls := ds }) := by
  have hfile : callbacks (callback parse path) [.file f, .expr (.ident f.Name)] = .ok () := rfl
  cases h : inspectDecls (addLogsFuncWith parse path) f.Decls with
  | error e =>
    simp only [addLogsWith, inspectFile, hfile,
      walkDecls_of_inspectDecls_error parse path f.Decls e h]
  | ok r =>
    obtain ⟨c, ds⟩ := r
    obtain ⟨t, ht⟩ := walkDecls_of_inspectDecls_ok parse path f.Decls ds c h
    simp only [addLogsWith, inspectFile, hfile, ht]

/-- The concrete run `addLogs` is the run node by node with the model `parseExpr` as the
parser. -/
theorem addLogs_eq_addLogsWith (path : String) (f : File) :
    addLogs path f = addLogsWith parseExpr path f := by
  rw [addLogsWith_eq, ← addLogsFunc_eq_with]
  rfl

/-- A run completes exactly when at every function declaration both texts parse to calls
and the body is present. -/
theorem addLogsWith_completes_iff (parse : String → Except String CallExpr) (path : String)
    (f : File) :
    (∃ c f1, addLogsWith parse path f = .ok (c, f1))
      ↔ ∀ d ∈ f.Decls, Completes parse path d := by
  rw [addLogsWith_eq]
  constructor
  · rintro ⟨c, f1, h⟩ d hd
    cases d with
    | genDecl g => trivial
    | funcDecl fn =>
      cases h1 : inspectDecls (addLogsFuncWith parse path) f.Decls with
      | error e => simp only [h1, reduceCtorEq] at h
      | ok r =>
        obtain ⟨c2, ds1⟩ := r
        obtain ⟨i, hi⟩ := List.getElem?_of_mem hd
        obtain ⟨fn1, hv, -⟩ := (inspectDecls_shape _ _ _ _ h1).2 i fn hi
        exact (addLogsFuncWith_ok_iff parse path fn).mp ⟨fn1, hv⟩
  · intro hall
    obtain ⟨c, ds1, h1⟩ := inspectDecls_completes (addLogsFuncWith parse path) f.Decls
      (fun fn hfn => (addLogsFuncWith_ok_iff parse path fn).mpr (hall _ hfn))
    exact ⟨c, { f with Decls := ds1 }, by simp only [h1]⟩

/-! ## The claims -/

/-- C1, at the failing input: for the path `a",x,"b.go` and the declaration
`func f(p int) (r int) { return p }` the run of `addLogsFunc` completes, and the entry
call it puts first has, after its first string, the arguments `x`, a second string and
`p`, where the claim has the single parameter `p`. -/
theorem entry_args_under_quoted_path :
    addLogsFunc "a\",x,\"b.go" fnOneOne = .ok { fnOneOne with Body := some (
      [.exprStmt ⟨infof, [.basicLit "\"CALL>>> a\"", .ident "x",
          .basicLit "\"b.go:f(p:%+v, )\"", .ident "p"]⟩,
       .deferStmt ⟨infof, [.basicLit "\"RET>>> %+v\"", .ident "r"]⟩,
       .other "return p"]) } := by
  rfl

/-- C2: for every parser, path and file, whenever the run of `addLogs` completes, the
declaration list keeps its length, and every function declaration of the file, at its
position, has become the same declaration with body
`[entry expression statement, deferred exit statement] ++ B`, where `B` is its former
body and the two calls are what the parser made of the entry and exit texts. The run
completes exactly when, at every function declaration, both texts parse to calls and the
body is present. -/
theorem addLogs_prepends_entry_and_exit (parse : String → Except String CallExpr)
    (path : String) (f : File) :
    (∀ (c : Bool) (f1 : File), addLogsWith parse path f = .ok (c, f1) →
      f1.Decls.length = f.Decls.length ∧
      ∀ (i : Nat) (fn : FuncDecl), f.Decls[i]? = some (Decl.funcDecl fn) →
        ∃ call ret B, parse (loglineCall path fn) = .ok call
          ∧ parse (loglineReturn fn) = .ok ret ∧ fn.Body = some B
          ∧ f1.Decls[i]? = some (Decl.funcDecl
              { fn with Body := some ([.exprStmt call, .deferStmt ret] ++ B) }))
    ∧ ((∃ c f1, addLogsWith parse path f = .ok (c, f1))
        ↔ ∀ d ∈ f.Decls, Completes parse path d) := by
  refine ⟨?_, addLogsWith_completes_iff parse path f⟩
  intro c f1 h
  rw [addLogsWith_eq] at h
  cases h1 : inspectDecls (addLogsFuncWith parse path) f.Decls with
  | error e => simp only [h1, reduceCtorEq] at h
  | ok r =>
    obtain ⟨c2, ds1⟩ := r
    simp only [h1, Except.ok.injEq, Prod.mk.injEq] at h
    obtain ⟨-, rfl⟩ := h
    obtain ⟨hlen, hidx⟩ := inspectDecls_shape _ _ _ _ h1
    refine ⟨hlen, ?_⟩
    intro i fn hi
    obtain ⟨fn1, hv, hget⟩ := hidx i fn hi
    obtain ⟨call, ret, B, hc, hr, hB, hfn⟩ := addLogsFuncWith_shape parse path fn fn1 hv
    exact ⟨call, ret, B, hc, hr, hB, by rw [← hfn]; exact hget⟩

/-- C2, at the file that declares `Add` with the path `add.go` and the model `parseExpr`
as the parser: the run gives `fileAddOnce`, where the body of `Add` is the entry call
with `a` and `b`, the deferred exit call with `sum`, then `sum = a + b` and `return`. -/
theorem addLogs_prepends_entry_and_exit_witness :
    addLogsWith parseExpr "add.go" fileAdd = .ok (true, fileAddOnce)
    ∧ fileAddOnce.Decls.length = fileAdd.Decls.length
    ∧ ∃ call ret B, parseExpr (loglineCall "add.go" fnAdd) = .ok call
        ∧ parseExpr (loglineReturn fnAdd) = .ok ret ∧ fnAdd.Body = some B
        ∧ fileAddOnce.Decls[0]? = some (Decl.funcDecl
            { fnAdd with Body := some ([.exprStmt call, .deferStmt ret] ++ B) }) :=
  ⟨by rfl,
   ((addLogs_prepends_entry_and_exit parseExpr "add.go" fileAdd).1 true fileAddOnce (by rfl)).1,
   ((addLogs_prepends_entry_and_exit parseExpr "add.go" fileAdd).1 true fileAddOnce
      (by rfl)).2 0 fnAdd rfl⟩

/-- C3, at the failing input: for `func f() (_ int) { return 0 }` the exit call that
`addLogsFunc` defers has the placeholder `%+v` in its message and the blank name `_` as
its argument; the parameter loop skips `_`, the result loop does not. -/
theorem exit_call_keeps_blank_result :
    addLogsFunc "a.go" fnBlankResult = .ok { fnBlankResult with Body := some (
      [.exprStmt ⟨infof, [.basicLit "\"CALL>>> a.go:f()\""]⟩,
       .deferStmt ⟨infof, [.basicLit "\"RET>>> %+v\"", .ident "_"]⟩,
       .other "return 0"]) } := by
  rfl

/-- C4, at the failing input: on the parsed file `package main; func f() {}` the first
`addImport` puts an import declaration with one logging spec in front, and the second
`addImport`, which still reads the unchanged `Imports`, appends a second logging spec to
it; the declaration list has two entries both times. -/
theorem addImport_twice_adds_second_spec :
    Parsed fileNoImport
    ∧ addImport fileNoImport
        = { fileNoImport with Decls := [.genDecl importDecl, .funcDecl fnEmpty] }
    ∧ addImport (addImport fileNoImport) = fileTwice
    ∧ addImport (addImport fileNoImport) ≠ addImport fileNoImport
    ∧ unaliasedCount (addImport (addImport fileNoImport)).Decls = 2 := by
  decide

/-- C5, as stated, fails: the parsed file that imports the logging path under the alias
`log` has, after `addImport`, two import specs with that path, the aliased one and the
new unaliased one. -/
theorem addImport_beside_aliased_import :
    Parsed fileAliased ∧ pathCount (addImport fileAliased).Decls = 2
      ∧ unaliasedCount (addImport fileAliased).Decls = 1 := by
  decide

/-- C5, amended: for a parsed file with at most one import declaration and at most one
unaliased import spec of the logging path, after `addImport` exactly one unaliased import
spec of the logging path occurs across the import declarations. -/
theorem addImport_one_unaliased_spec (f : File) (hp : Parsed f)
    (hdecl : importDeclCount f.Decls ≤ 1) (hspec : unaliasedCount f.Decls ≤ 1) :
    unaliasedCount (addImport f).Decls = 1 := by
  unfold addImport
  by_cases h : hasLogrusImport f.Imports = true
  · have hpos : 0 < unaliasedCount f.Decls := by
      rw [hp] at h
      exact (hasLogrusImport_importsOf f.Decls).mp h
    simp only [h, if_true]
    omega
  · have hzero : unaliasedCount f.Decls = 0 := by
      rw [hp] at h
      have := (hasLogrusImport_importsOf f.Decls).not.mp h
      omega
    simp only [h]
    by_cases hany : f.Decls.any isImportDecl = true
    · have := (importDeclCount_pos_iff f.Decls).mp hany
      simp only [hany, if_true, Bool.false_eq_true, if_false,
        unaliasedCount_map_appendImport]
      omega
    · have hcount : importDeclCount f.Decls = 0 := by
        have := (importDeclCount_pos_iff f.Decls).not.mp hany
        omega
      simp only [hany, Bool.false_eq_true, if_false, unaliasedCount, importDecl,
        unaliasedCount_map_appendImport, hzero, hcount]
      decide

/-- C5, amended, at the file with the aliased import: one unaliased spec afterwards. -/
theorem addImport_one_unaliased_spec_witness :
    unaliasedCount (addImport fileAliased).Decls = 1 :=
  addImport_one_unaliased_spec fileAliased (by decide) (by decide) (by decide)

/-- C6, at the failing inputs: for the declaration `func f() {}` and the path `a"b.go`
the entry text is `logrus.Infof("CALL>>> a"b.go:f()", )`, which is no expression, and
`addLogs` panics; it panics as well for the path `a\d.go` (an unknown escape in the
literal) and for a path with a newline (a literal that is not closed on its line). -/
theorem addLogs_panics_on_unescaped_path :
    loglineCall "a\"b.go" fnEmpty = "logrus.Infof(\"CALL>>> a\"b.go:f()\", )"
    ∧ panics (parseExpr (loglineCall "a\"b.go" fnEmpty)) = true
    ∧ panics (addLogs "a\"b.go" fileNoImport) = true
    ∧ panics (addLogs "a\\d.go" fileNoImport) = true
    ∧ panics (addLogs "a\nb.go" fileNoImport) = true := by
  decide

/-- C7, at the failing input: for the path `x%d.go` and `func f() {}` the entry call has
the message `CALL>>> x%d.go:f()`, which holds one placeholder, and no argument after
the message. -/
theorem entry_placeholders_under_percent_path :
    addLogsFunc "x%d.go" fnEmpty = .ok { fnEmpty with Body := some (
      [.exprStmt ⟨infof, [.basicLit "\"CALL>>> x%d.go:f()\""]⟩,
       .deferStmt ⟨infof, [.basicLit "\"RET>>> \""]⟩]) }
    ∧ operands "CALL>>> x%d.go:f()" = 1 := by
  exact ⟨by rfl, by decide⟩

/-- C8, at the failing input: for the file `package main; func f() {}`, whose only
function has no parameter and no result, and the path `my"dir/main.go`, `addLogs`
panics. -/
theorem addLogs_panics_without_params_and_results :
    fnEmpty.Params = [] ∧ fnEmpty.Results = none
    ∧ panics (addLogs "my\"dir/main.go" fileNoImport) = true := by
  decide

/-- C9, at the failing input: for `func f() int { return 0 }`, which has no parameter
and an unnamed result, and the path `src",y,"z.go`, the exit call has no argument after
its message, and the entry call has the arguments `y` and a second string after its
first string. -/
theorem entry_args_unnamed_under_quoted_path :
    addLogsFunc "src\",y,\"z.go" fnUnnamedResult = .ok { fnUnnamedResult with Body := some (
      [.exprStmt ⟨infof, [.basicLit "\"CALL>>> src\"", .ident "y",
          .basicLit "\"z.go:f()\""]⟩,
       .deferStmt ⟨infof, [.basicLit "\"RET>>> \""]⟩,
       .other "return 0"]) } := by
  rfl

/-- C10: for a parsed file without any import declaration, `addImport` returns the file
with the declaration list `[D] ++ f.Decls`, where `D` is the import declaration whose
only spec is the unaliased logging path; the name and the former declarations are kept
as they were. -/
theorem addImport_prepends_import_decl (f : File) (hp : Parsed f)
    (hno : f.Decls.any isImportDecl = false) :
    addImport f = { f with Decls := [Decl.genDecl importDecl] ++ f.Decls }
    ∧ importDecl
        = ⟨Tok.IMPORT, 1, 1, [Spec.importSpec ⟨none, "\"github.com/sirupsen/logrus\""⟩]⟩ := by
  refine ⟨?_, rfl⟩
  have himp : hasLogrusImport f.Imports = false := by
    rw [hp, importsOf_of_no_import f.Decls hno]
    rfl
  unfold addImport
  simp only [himp, hno, Bool.false_eq_true, if_false, map_appendImport_of_no_import f.Decls hno,
    List.singleton_append]

/-- C10, at the parsed file `package main; func f() {}`. -/
theorem addImport_prepends_import_decl_witness :
    addImport fileNoImport
      = { fileNoImport with Decls := [Decl.genDecl importDecl] ++ fileNoImport.Decls }
    ∧ importDecl
        = ⟨Tok.IMPORT, 1, 1, [Spec.importSpec ⟨none, "\"github.com/sirupsen/logrus\""⟩]⟩ :=
  addImport_prepends_import_decl fileNoImport (by decide) (by decide)

/-! ## The flag `changed` and a second run -/

theorem inspectDecls_changed (visit : FuncDecl → Except String FuncDecl)
    (ds ds1 : List Decl) (c : Bool) (h : inspectDecls visit ds = .ok (c, ds1)) :
    c = ds.any isFuncDecl := by
  induction ds generalizing ds1 c with
  | nil =>
    simp only [inspectDecls, Except.ok.injEq, Prod.mk.injEq] at h
    simp [← h.1]
  | cons d ds ih =>
    cases d with
    | funcDecl fn0 =>
      simp only [inspectDecls] at h
      cases h1 : visit fn0 with
      | error e => simp only [h1, reduceCtorEq] at h
      | ok fn1 =>
        cases h2 : inspectDecls visit ds with
        | error e => simp only [h1, h2, reduceCtorEq] at h
        | ok r =>
          obtain ⟨c2, ds2⟩ := r
          simp only [h1, h2, Except.ok.injEq, Prod.mk.injEq] at h
          simp [← h.1, isFuncDecl]
    | genDecl g =>
      simp only [inspectDecls] at h
      cases h2 : inspectDecls visit ds with
      | error e => simp only [h2, reduceCtorEq] at h
      | ok r =>
        obtain ⟨c2, ds2⟩ := r
        simp only [h2, Except.ok.injEq, Prod.mk.injEq] at h
        have := ih ds2 c2 h2
        simp [← h.1, isFuncDecl, this]

theorem inspectDecls_without_func (visit : FuncDecl → Except String FuncDecl)
    (ds : List Decl) (h : ds.any isFuncDecl = false) :
    inspectDecls visit ds = .ok (false, ds) := by
  induction ds with
  | nil => rfl
  | cons d ds ih =>
    simp only [List.any_cons, Bool.or_eq_false_iff] at h
    cases d with
    | funcDecl fn0 => simp [isFuncDecl] at h
    | genDecl g => simp only [inspectDecls, ih h.2]

theorem inspectDecls_rerun (visit : FuncDecl → Except String FuncDecl)
    (ds ds1 : List Decl) (c : Bool) (h : inspectDecls visit ds = .ok (c, ds1))
    (hv : ∀ fn fn1, visit fn = .ok fn1 → ∃ fn2, visit fn1 = .ok fn2) :
    ∃ c2 ds2, inspectDecls visit ds1 = .ok (c2, ds2) := by
  induction ds generalizing ds1 c with
  | nil =>
    simp only [inspectDecls, Except.ok.injEq, Prod.mk.injEq] at h
    obtain ⟨-, rfl⟩ := h
    exact ⟨false, [], rfl⟩
  | cons d ds ih =>
    cases d with
    | funcDecl fn0 =>
      simp only [inspectDecls] at h
      cases h1 : visit fn0 with
      | error e => simp only [h1, reduceCtorEq] at h
      | ok fn1 =>
        cases h2 : inspectDecls visit ds with
        | error e => simp only [h1, h2, reduceCtorEq] at h
        | ok r =>
          obtain ⟨c2, ds2⟩ := r
          simp only [h1, h2, Except.ok.injEq, Prod.mk.injEq] at h
          obtain ⟨-, rfl⟩ := h
          obtain ⟨c3, ds3, h3⟩ := ih ds2 c2 h2
          obtain ⟨fn2, hfn2⟩ := hv fn0 fn1 h1
          exact ⟨true, Decl.funcDecl fn2 :: ds3, by simp only [inspectDecls, hfn2, h3]⟩
    | genDecl g =>
      simp only [inspectDecls] at h
      cases h2 : inspectDecls visit ds with
      | error e => simp only [h2, reduceCtorEq] at h
      | ok r =>
        obtain ⟨c2, ds2⟩ := r
        simp only [h2, Except.ok.injEq, Prod.mk.injEq] at h
        obtain ⟨-, rfl⟩ := h
        obtain ⟨c3, ds3, h3⟩ := ih ds2 c2 h2
        exact ⟨c3, Decl.genDecl g :: ds3, by simp only [inspectDecls, h3]⟩

/-- A second run of `addLogsFunc` on the result of a first one completes and puts the
same two statements in front once more: the texts depend on the name, the parameters
and the results only. -/
theorem addLogsFunc_again (path : String) (fn fn1 : FuncDecl)
    (h : addLogsFunc path fn = .ok fn1) :
    ∃ call ret B, parseExpr (loglineCall path fn) = .ok call
      ∧ parseExpr (loglineReturn fn) = .ok ret ∧ fn.Body = some B
      ∧ fn1 = { fn with Body := some ([.exprStmt call, .deferStmt ret] ++ B) }
      ∧ addLogsFunc path fn1 = .ok { fn with Body := some (
          [.exprStmt call, .deferStmt ret, .exprStmt call, .deferStmt ret] ++ B) } := by
  obtain ⟨call, ret, B, hc, hr, hB, hfn⟩ := addLogsFunc_shape path fn fn1 h
  refine ⟨call, ret, B, hc, hr, hB, hfn, ?_⟩
  have e1 : loglineCall path fn1 = loglineCall path fn := by rw [hfn]; rfl
  have e2 : loglineReturn fn1 = loglineReturn fn := by rw [hfn]; rfl
  have e3 : fn1.Body = some ([.exprStmt call, .deferStmt ret] ++ B) := by rw [hfn]
  unfold addLogsFunc
  rw [e1, hc, e2, hr]
  simp only [e3]
  rw [hfn]
  rfl

/-- A second run of the branch on the result of a first one, for every parser: it
completes and puts the same two statements in front once more. -/
theorem addLogsFuncWith_again (parse : String → Except String CallExpr) (path : String)
    (fn fn1 : FuncDecl) (h : addLogsFuncWith parse path fn = .ok fn1) :
    ∃ call ret B, parse (loglineCall path fn) = .ok call
      ∧ parse (loglineReturn fn) = .ok ret ∧ fn.Body = some B
      ∧ fn1 = { fn with Body := some ([.exprStmt call, .deferStmt ret] ++ B) }
      ∧ addLogsFuncWith parse path fn1 = .ok { fn with Body := some (
          [.exprStmt call, .deferStmt ret, .exprStmt call, .deferStmt ret] ++ B) } := by
  obtain ⟨call, ret, B, hc, hr, hB, hfn⟩ := addLogsFuncWith_shape parse path fn fn1 h
  refine ⟨call, ret, B, hc, hr, hB, hfn, ?_⟩
  have e1 : loglineCall path fn1 = loglineCall path fn := by rw [hfn]; rfl
  have e2 : loglineReturn fn1 = loglineReturn fn := by rw [hfn]; rfl
  have e3 : fn1.Body = some ([.exprStmt call, .deferStmt ret] ++ B) := by rw [hfn]
  unfold addLogsFuncWith
  rw [e1, hc, e2, hr]
  simp only [e3]
  rw [hfn]
  rfl

/-! ## The nodes the callback is handed -/

theorem filterMap_funcDeclOfNode_nil (l : List Node)
    (h : ∀ n ∈ l, isFuncDeclNode n = false) : l.filterMap funcDeclOfNode = [] := by
  induction l with
  | nil => rfl
  | cons n ns ih =>
    have h0 := h n (List.mem_cons_self _ _)
    have hn : funcDeclOfNode n = none := by
      cases n with
      | funcDecl fn => simp [isFuncDeclNode] at h0
      | _ => rfl
    simp only [List.filterMap_cons, hn]
    exact ih (fun m hm => h m (List.mem_cons_of_mem _ hm))

/-- The nodes of a statement of the body of a function declaration, the statement and
what is below it, are among the nodes below the declaration. -/
theorem nodesOfStmt_sub_nodesBelowFunc (fn : FuncDecl) (list : List Stmt) (s : Stmt)
    (hB : fn.Body = some list) (hs : s ∈ list) :
    ∀ n ∈ nodesOfStmt s, n ∈ nodesBelowFunc fn := by
  intro n hn
  have hflat : n ∈ list.flatMap nodesOfStmt := List.mem_flatMap.mpr ⟨s, hs, hn⟩
  simp only [nodesBelowFunc, hB, List.mem_append, List.mem_cons]
  exact Or.inr (Or.inr (Or.inr (Or.inr (Or.inr (Or.inr hflat)))))

/-- On a node that is no function declaration the callback of `addLogs` returns without
a change to the tree. -/
theorem callback_no_func (parse : String → Except String CallExpr) (path : String)
    (n : Node) (h : isFuncDeclNode n = false) : callback parse path n = .ok none := by
  cases n with
  | funcDecl fn => simp [isFuncDeclNode] at h
  | _ => rfl

/-- In a walk with the callback of `addLogs`, the function declarations the callback is
handed are the function declarations of the list, each once and in order; and the nodes
below each resulting function declaration, read after the callback, were all handed to
the callback. -/
theorem walkDecls_trace (parse : String → Except String CallExpr) (path : String)
    (ds ds1 : List Decl) (c : Bool) (t : List Node)
    (h : walkDecls (callback parse path) ds = .ok (ds1, c, t)) :
    t.filterMap funcDeclOfNode = ds.filterMap funcDeclOf
      ∧ ∀ fn1, Decl.funcDecl fn1 ∈ ds1 → ∀ n ∈ nodesBelowFunc fn1, n ∈ t := by
  induction ds generalizing ds1 c t with
  | nil =>
    simp only [walkDecls, Except.ok.injEq, Prod.mk.injEq] at h
    obtain ⟨rfl, -, rfl⟩ := h
    exact ⟨rfl, fun fn1 hfn => absurd hfn (List.not_mem_nil _)⟩
  | cons d ds ih =>
    simp only [walkDecls] at h
    cases hr : walkDecls (callback parse path) ds with
    | error e =>
      cases hd : walkDecl (callback parse path) d with
      | error e1 => simp only [hd, reduceCtorEq] at h
      | ok r1 => simp only [hd, hr, reduceCtorEq] at h
    | ok r =>
      obtain ⟨ds2, c2, t2⟩ := r
      obtain ⟨ih1, ih2⟩ := ih ds2 c2 t2 hr
      cases d with
      | funcDecl fn0 =>
        rw [walkDecl_callback_func] at h
        cases h1 : addLogsFuncWith parse path fn0 with
        | error e => simp only [h1, reduceCtorEq] at h
        | ok fn1 =>
          simp only [h1, hr, Except.ok.injEq, Prod.mk.injEq] at h
          obtain ⟨rfl, -, rfl⟩ := h
          constructor
          · simp only [List.cons_append, List.filterMap_cons, funcDeclOfNode,
              List.filterMap_append, funcDeclOf, ih1,
              filterMap_funcDeclOfNode_nil _ (nodesBelowFunc_no_func fn1), List.nil_append]
          · intro fn2 hfn2 n hn
            rcases List.mem_cons.mp hfn2 with heq | hmem
            · simp only [Decl.funcDecl.injEq] at heq
              subst heq
              exact List.mem_cons_of_mem _ (List.mem_append_left _ hn)
            · exact List.mem_cons_of_mem _ (List.mem_append_right _ (ih2 fn2 hmem n hn))
      | genDecl g =>
        rw [walkDecl_callback_gen] at h
        simp only [hr, Except.ok.injEq, Prod.mk.injEq] at h
        obtain ⟨rfl, -, rfl⟩ := h
        constructor
        · simp only [List.cons_append, List.filterMap_cons, funcDeclOfNode,
            List.filterMap_append, funcDeclOf, ih1,
            filterMap_funcDeclOfNode_nil _ (nodesBelowGen_no_func g), List.nil_append]
        · intro fn2 hfn2 n hn
          rcases List.mem_cons.mp hfn2 with heq | hmem
          · simp only [reduceCtorEq] at heq
          · exact List.mem_cons_of_mem _ (List.mem_append_right _ (ih2 fn2 hmem n hn))

/-- In a walk with the callback of `addLogs`, at the position of a function declaration
the trace holds the declaration as it stood when the callback was handed it, and right
after it the nodes below the declaration as the callback left it. -/
theorem walkDecls_trace_at (parse : String → Except String CallExpr) (path : String)
    (ds ds1 : List Decl) (c : Bool) (t : List Node)
    (h : walkDecls (callback parse path) ds = .ok (ds1, c, t)) :
    ∀ (i : Nat) (fn : FuncDecl), ds[i]? = some (Decl.funcDecl fn) →
      ∃ fn1 pre post, addLogsFuncWith parse path fn = .ok fn1
        ∧ ds1[i]? = some (Decl.funcDecl fn1)
        ∧ t = pre ++ Node.funcDecl fn :: (nodesBelowFunc fn1 ++ post) := by
  induction ds generalizing ds1 c t with
  | nil =>
    intro i fn hi
    simp only [List.getElem?_nil, reduceCtorEq] at hi
  | cons d ds ih =>
    simp only [walkDecls] at h
    cases hr : walkDecls (callback parse path) ds with
    | error e =>
      cases hd : walkDecl (callback parse path) d with
      | error e1 => simp only [hd, reduceCtorEq] at h
      | ok r1 => simp only [hd, hr, reduceCtorEq] at h
    | ok r =>
      obtain ⟨ds2, c2, t2⟩ := r
      have ih1 := ih ds2 c2 t2 hr
      cases d with
      | funcDecl fn0 =>
        rw [walkDecl_callback_func] at h
        cases h1 : addLogsFuncWith parse path fn0 with
        | error e => simp only [h1, reduceCtorEq] at h
        | ok fn1 =>
          simp only [h1, hr, Except.ok.injEq, Prod.mk.injEq] at h
          obtain ⟨rfl, -, rfl⟩ := h
          intro i fn hi
          cases i with
          | zero =>
            simp only [List.getElem?_cons_zero, Option.some.injEq, Decl.funcDecl.injEq] at hi
            subst hi
            exact ⟨fn1, [], t2, h1, List.getElem?_cons_zero, rfl⟩
          | succ j =>
            simp only [List.getElem?_cons_succ] at hi
            obtain ⟨fn2, pre, post, hv, hget, ht⟩ := ih1 j fn hi
            refine ⟨fn2, (Node.funcDecl fn0 :: nodesBelowFunc fn1) ++ pre, post, hv, ?_, ?_⟩
            · simp only [List.getElem?_cons_succ, hget]
            · rw [ht, List.append_assoc]
      | genDecl g =>
        rw [walkDecl_callback_gen] at h
        simp only [hr, Except.ok.injEq, Prod.mk.injEq] at h
        obtain ⟨rfl, -, rfl⟩ := h
        intro i fn hi
        cases i with
        | zero =>
          simp only [List.getElem?_cons_zero, Option.some.injEq, reduceCtorEq] at hi
        | succ j =>
          simp only [List.getElem?_cons_succ] at hi
          obtain ⟨fn2, pre, post, hv, hget, ht⟩ := ih1 j fn hi
          refine ⟨fn2, (Node.genDecl g :: nodesBelowGen g) ++ pre, post, hv, ?_, ?_⟩
          · simp only [List.getElem?_cons_succ, hget]
          · rw [ht, List.append_assoc]

/-- The run `addLogsWith` is the first two parts of what `inspectFile` returns. -/
theorem addLogsWith_of_inspectFile (parse : String → Except String CallExpr) (path : String)
    (f f1 : File) (c : Bool) (trace : List Node)
    (h : inspectFile (callback parse path) f = .ok (f1, c, trace)) :
    addLogsWith parse path f = .ok (c, f1) := by
  simp only [addLogsWith, h]

theorem inspectFile_of_addLogsWith (parse : String → Except String CallExpr) (path : String)
    (f f1 : File) (c : Bool) (h : addLogsWith parse path f = .ok (c, f1)) :
    ∃ trace, inspectFile (callback parse path) f = .ok (f1, c, trace) := by
  unfold addLogsWith at h
  cases hr : inspectFile (callback parse path) f with
  | error e => simp only [hr, reduceCtorEq] at h
  | ok r =>
    obtain ⟨f2, c2, t⟩ := r
    simp only [hr, Except.ok.injEq, Prod.mk.injEq] at h
    obtain ⟨rfl, rfl⟩ := h
    exact ⟨t, rfl⟩

/-! ## More on `addImport` -/

/-- For a parsed file without an unaliased logging import and with an import
declaration, `addImport` appends the new spec to every import declaration and changes
nothing else. -/
theorem addImport_appends_to_every_import_decl (f : File) (hp : Parsed f)
    (hzero : unaliasedCount f.Decls = 0) (hany : f.Decls.any isImportDecl = true) :
    addImport f = { f with Decls := f.Decls.map appendImport }
      ∧ (addImport f).Decls.length = f.Decls.length := by
  have himp : hasLogrusImport f.Imports = false := by
    rw [hp]
    have := (hasLogrusImport_importsOf f.Decls).not.mpr (by omega)
    simpa using this
  have hres : addImport f = { f with Decls := f.Decls.map appendImport } := by
    unfold addImport
    simp only [himp, hany, Bool.false_eq_true, if_false, if_true]
  exact ⟨hres, by rw [hres]; simp⟩

/-- With exactly one import declaration among the declarations, the callback changes
that one alone: it gains the new spec after its former specs. -/
theorem map_appendImport_single (ds : List Decl) (h : importDeclCount ds = 1) :
    ∃ pre g post, ds = pre ++ Decl.genDecl g :: post ∧ g.Tok = Tok.IMPORT
      ∧ ds.map appendImport
        = pre ++ Decl.genDecl { g with Specs := g.Specs ++ [Spec.importSpec newImport] } :: post := by
  induction ds with
  | nil => simp [importDeclCount] at h
  | cons d ds ih =>
    by_cases hd : isImportDecl d = true
    · have hrest : importDeclCount ds = 0 := by
        simp only [importDeclCount, List.countP_cons, hd, if_true] at h ⊢
        omega
      have hnone : ds.any isImportDecl = false := by
        have := (importDeclCount_pos_iff ds).not.mpr (by omega)
        simpa using this
      cases d with
      | funcDecl fn => simp [isImportDecl] at hd
      | genDecl g =>
        have hg : g.Tok = Tok.IMPORT := by simpa [isImportDecl] using hd
        refine ⟨[], g, ds, rfl, hg, ?_⟩
        simp [appendImport, hg, map_appendImport_of_no_import ds hnone]
    · have hrest : importDeclCount ds = 1 := by
        simp only [importDeclCount, List.countP_cons, hd, Bool.false_eq_true, if_false] at h ⊢
        omega
      obtain ⟨pre, g, post, hds, hg, hmap⟩ := ih hrest
      have hsame : appendImport d = d := by
        cases d with
        | funcDecl fn => rfl
        | genDecl g0 =>
          have : ¬ g0.Tok = Tok.IMPORT := by simpa [isImportDecl] using hd
          simp [appendImport, this]
      refine ⟨d :: pre, g, post, by rw [hds]; rfl, hg, ?_⟩
      simp [hsame, hmap]

/-- For a parsed file with exactly one import declaration and no unaliased logging
import, `addImport` changes that declaration alone: it gains the new spec after its
former specs, and the declaration list keeps its length. -/
theorem addImport_appends_to_single_import_decl (f : File) (hp : Parsed f)
    (hzero : unaliasedCount f.Decls = 0) (hone : importDeclCount f.Decls = 1) :
    ∃ pre g post, f.Decls = pre ++ Decl.genDecl g :: post ∧ g.Tok = Tok.IMPORT
      ∧ addImport f = { f with Decls := (
          pre ++ Decl.genDecl { g with Specs := g.Specs ++ [Spec.importSpec newImport] } :: post) } := by
  have hany : f.Decls.any isImportDecl = true :=
    (importDeclCount_pos_iff f.Decls).mpr (by omega)
  obtain ⟨pre, g, post, hds, hg, hmap⟩ := map_appendImport_single f.Decls hone
  refine ⟨pre, g, post, hds, hg, ?_⟩
  rw [(addImport_appends_to_every_import_decl f hp hzero hany).1, hmap]

/-! ## The texts as strings -/

theorem loglineCall_eq (path : String) (fn : FuncDecl) :
    loglineCall path fn
      = "logrus.Infof(\"" ++ callMessage path fn ++ "\", " ++ (argsStrings fn.Params).2 ++ ")" := by
  apply String.ext
  simp only [loglineCall, callMessage, String.data_append, List.append_assoc]
  rfl

theorem loglineReturn_eq (fn : FuncDecl) :
    loglineReturn fn
      = "logrus.Infof(\"" ++ returnMessage fn ++ "\", " ++ (retStrings fn.Results).2 ++ ")" := by
  apply String.ext
  simp only [loglineReturn, returnMessage, String.data_append, List.append_assoc]

theorem argsString_eq_join (fn : FuncDecl) :
    (argsStrings fn.Params).1 = String.join ((paramNames fn).map (fun n => n ++ ":%+v, ")) := by
  apply String.ext
  have := (argsStrings_toList fn).1
  simp only [String.toList] at this
  rw [this, String.data_join]
  generalize paramNames fn = names
  induction names with
  | nil => rfl
  | cons n ns ih => simp [List.flatMap_cons, String.data_append, ih]

theorem retString_eq_join (fn : FuncDecl) :
    (retStrings fn.Results).1 = String.join (List.replicate (resultNames fn).length "%+v") := by
  apply String.ext
  have := (retStrings_toList fn).1
  simp only [String.toList] at this
  rw [this, String.data_join]
  generalize resultNames fn = names
  induction names with
  | nil => rfl
  | cons n ns ih => simp [List.flatMap_cons, List.replicate_succ, ih]

/-! ## What `modify` reports -/

/-- The error of the parse is what `modify` returns. -/
theorem modify_reports_parse_error (env : Env) (f err : String)
    (h : env.parseFile f = .error err) : modify env f = .ok (some err) := by
  unfold modify
  rw [h]

/-- In live mode the error of `os.OpenFile` is what `modify` returns, when the parse
and the tree part succeed. -/
theorem modify_reports_open_error (env : Env) (f err : String) (file file1 : File)
    (hparse : env.parseFile f = .ok file) (htree : modifyTree f file = .ok file1)
    (hlive : env.dry = false) (hopen : env.openFile f = some err) :
    modify env f = .ok (some err) := by
  unfold modify
  rw [hparse]
  simp only [htree, hlive, hopen, Bool.false_eq_true, if_false]

/-- The outcome of `printer.Fprint` has no part in what `modify` returns. -/
theorem modify_ignores_fprint (env : Env) (g : File → Option String) (f : String) :
    modify { env with fprint := g } f = modify env f := by
  rfl

/-! ## The claims, continued -/

/-- C11, at the failing input: the parsed file with the two import declarations
`import "fmt"` and `import "os"` has no logging import, and `addImport` appends the new
logging spec to both of them, where the claim has exactly one import declaration gain
a spec; the declaration list keeps its length and the function declaration is as
before. -/
theorem addImport_appends_to_both_import_decls :
    Parsed fileTwoImports
    ∧ unaliasedCount fileTwoImports.Decls = 0
    ∧ addImport fileTwoImports = { fileTwoImports with Decls :=
        [.genDecl ⟨.IMPORT, 0, 0, [.importSpec ⟨none, "\"fmt\""⟩, .importSpec newImport]⟩,
         .genDecl ⟨.IMPORT, 0, 0, [.importSpec ⟨none, "\"os\""⟩, .importSpec newImport]⟩,
         .funcDecl fnEmpty] }
    ∧ unaliasedCount (addImport fileTwoImports).Decls = 2 := by
  decide

/-- C12: when the import list of the file holds an entry with the logging path and no
alias, `addImport` returns the file as it was. -/
theorem addImport_noop_with_logging_import (f : File) (im : ImportSpec)
    (hmem : im ∈ f.Imports) (hpath : im.Path = logrusImportPath) (hname : im.Name = none) :
    addImport f = f := by
  have h : hasLogrusImport f.Imports = true := by
    unfold hasLogrusImport
    rw [List.any_eq_true]
    exact ⟨im, hmem, by simp [hpath, hname]⟩
  unfold addImport
  simp only [h, if_true]

/-- C12, at the parsed file that imports the logging path without alias. -/
theorem addImport_noop_with_logging_import_witness : addImport fileLogrus = fileLogrus :=
  addImport_noop_with_logging_import fileLogrus ⟨none, logrusImportPath⟩
    (by decide) rfl rfl

/-- C13: for every parser, path and file, when the run of `addLogs` completes, the flag
it returns is true if and only if the file has a function declaration. -/
theorem addLogs_changed_iff_func_decl (parse : String → Except String CallExpr)
    (path : String) (f f1 : File) (c : Bool) (h : addLogsWith parse path f = .ok (c, f1)) :
    c = true ↔ ∃ fn, Decl.funcDecl fn ∈ f.Decls := by
  rw [addLogsWith_eq] at h
  cases h1 : inspectDecls (addLogsFuncWith parse path) f.Decls with
  | error e => simp only [h1, reduceCtorEq] at h
  | ok r =>
    obtain ⟨c2, ds1⟩ := r
    simp only [h1, Except.ok.injEq, Prod.mk.injEq] at h
    obtain ⟨rfl, -⟩ := h
    rw [inspectDecls_changed _ _ _ _ h1, List.any_eq_true]
    constructor
    · rintro ⟨d, hd, hfn⟩
      cases d with
      | funcDecl fn => exact ⟨fn, hd⟩
      | genDecl g => simp [isFuncDecl] at hfn
    · rintro ⟨fn, hfn⟩
      exact ⟨_, hfn, rfl⟩

/-- C13, with the model `parseExpr` as the parser: at the file that declares `Add` the
run returns true and the file has a function declaration, at the file
`package main; var x int` the run returns false and the file has none. -/
theorem addLogs_changed_iff_func_decl_witness :
    addLogsWith parseExpr "add.go" fileAdd = .ok (true, fileAddOnce)
    ∧ ((true = true) ↔ ∃ fn, Decl.funcDecl fn ∈ fileAdd.Decls)
    ∧ addLogsWith parseExpr "a.go" fileNoFunc = .ok (false, fileNoFunc)
    ∧ ((false = true) ↔ ∃ fn, Decl.funcDecl fn ∈ fileNoFunc.Decls) :=
  ⟨by rfl,
   addLogs_changed_iff_func_decl parseExpr "add.go" fileAdd fileAddOnce true (by rfl),
   by rfl,
   addLogs_changed_iff_func_decl parseExpr "a.go" fileNoFunc fileNoFunc false (by rfl)⟩

/-- C14: for a file without function declaration, and any path, the tree part of
`modify` completes and returns the file as it was, whatever its imports are. -/
theorem modifyTree_unchanged_without_func_decl (path : String) (f : File)
    (h : f.Decls.any isFuncDecl = false) :
    modifyTree path f = .ok f := by
  unfold modifyTree addLogs
  rw [inspectDecls_without_func _ _ h]
  rfl

/-- C14, at the file `package main; var x int`. -/
theorem modifyTree_unchanged_without_func_decl_witness :
    modifyTree "a.go" fileNoFunc = .ok fileNoFunc :=
  modifyTree_unchanged_without_func_decl "a.go" fileNoFunc (by decide)

/-- C15: for every parser, path and file, when a run of `addLogs` over the file
completes, a second run with the same path over its result completes too, and every
function declaration of the file, with former body `B`, then has the body
`[entry, deferred exit, entry, deferred exit] ++ B`, the second pair being the first pair
again. -/
theorem addLogs_twice_nests_traces (parse : String → Except String CallExpr)
    (path : String) (f f1 : File) (c1 : Bool) (h1 : addLogsWith parse path f = .ok (c1, f1)) :
    ∃ c2 f2, addLogsWith parse path f1 = .ok (c2, f2) ∧ f2.Decls.length = f.Decls.length ∧
      ∀ (i : Nat) (fn : FuncDecl), f.Decls[i]? = some (Decl.funcDecl fn) →
        ∃ call ret B, parse (loglineCall path fn) = .ok call
          ∧ parse (loglineReturn fn) = .ok ret ∧ fn.Body = some B
          ∧ f2.Decls[i]? = some (Decl.funcDecl { fn with Body := some (
              [.exprStmt call, .deferStmt ret, .exprStmt call, .deferStmt ret] ++ B) }) := by
  rw [addLogsWith_eq] at h1
  cases hr1 : inspectDecls (addLogsFuncWith parse path) f.Decls with
  | error e => simp only [hr1, reduceCtorEq] at h1
  | ok r =>
    obtain ⟨c, ds1⟩ := r
    simp only [hr1, Except.ok.injEq, Prod.mk.injEq] at h1
    obtain ⟨-, rfl⟩ := h1
    obtain ⟨c2, ds2, hr2⟩ := inspectDecls_rerun _ _ _ _ hr1 (fun fn fn1 hfn => by
      obtain ⟨call, ret, B, -, -, -, -, hagain⟩ := addLogsFuncWith_again parse path fn fn1 hfn
      exact ⟨_, hagain⟩)
    obtain ⟨hlen1, hidx1⟩ := inspectDecls_shape _ _ _ _ hr1
    obtain ⟨hlen2, hidx2⟩ := inspectDecls_shape _ _ _ _ hr2
    refine ⟨c2, { f with Decls := ds2 }, ?_, by simp only [hlen2, hlen1], ?_⟩
    · rw [addLogsWith_eq]
      simp only [hr2]
    intro i fn hi
    obtain ⟨fn1, hv1, hget1⟩ := hidx1 i fn hi
    obtain ⟨fn2, hv2, hget2⟩ := hidx2 i fn1 hget1
    obtain ⟨call, ret, B, hc, hr, hB, -, hagain⟩ := addLogsFuncWith_again parse path fn fn1 hv1
    rw [hagain] at hv2
    simp only [Except.ok.injEq] at hv2
    exact ⟨call, ret, B, hc, hr, hB, by rw [hv2]; exact hget2⟩

/-- C15, at the file that declares `Add` with the path `add.go` and the model
`parseExpr` as the parser: the first run gives `fileAddOnce`, the second run over it
gives `fileAddTwice`, where the body of `Add` is the entry call with `a` and `b`, the
deferred exit call with `sum`, the same two once more, then `sum = a + b` and
`return`. -/
theorem addLogs_twice_nests_traces_witness :
    addLogsWith parseExpr "add.go" fileAdd = .ok (true, fileAddOnce)
    ∧ addLogsWith parseExpr "add.go" fileAddOnce = .ok (true, fileAddTwice)
    ∧ ∃ c2 f2, addLogsWith parseExpr "add.go" fileAddOnce = .ok (c2, f2)
        ∧ f2.Decls.length = fileAdd.Decls.length ∧
        ∀ (i : Nat) (fn : FuncDecl), fileAdd.Decls[i]? = some (Decl.funcDecl fn) →
          ∃ call ret B, parseExpr (loglineCall "add.go" fn) = .ok call
            ∧ parseExpr (loglineReturn fn) = .ok ret ∧ fn.Body = some B
            ∧ f2.Decls[i]? = some (Decl.funcDecl { fn with Body := some (
                [.exprStmt call, .deferStmt ret, .exprStmt call, .deferStmt ret] ++ B) }) :=
  ⟨by rfl, by rfl,
   addLogs_twice_nests_traces parseExpr "add.go" fileAdd fileAddOnce true (by rfl)⟩

/-- C16: for the file that declares only `Add` and has no import declaration, under
any plain path, the tree part of `modify` yields the tree `fileAddDone`: an import
declaration with the logging spec alone in front, then `Add` whose body is the entry
call with the arguments `a`, `b`, the deferred exit call with the argument `sum`, and the
statements `sum = a + b` and `return`. -/
theorem modifyTree_add_scenario (path : String) (hp : plainText path = true) :
    modifyTree path fileAdd = .ok (fileAddDone path)
      ∧ importsOf (fileAddDone path).Decls = [⟨none, "\"github.com/sirupsen/logrus\""⟩] := by
  refine ⟨?_, rfl⟩
  have hfn := addLogsFunc_plain path fnAdd _ hp (by decide) rfl
  have hm : "\"" ++ callMessage path fnAdd ++ "\""
      = "\"CALL>>> " ++ path ++ ":Add(a:%+v, b:%+v, )\"" := by
    apply String.ext
    simp only [callMessage, String.data_append, List.append_assoc]
    rfl
  have hcall : infofCall (callMessage path fnAdd) (paramNames fnAdd)
      = ⟨infof, [.basicLit ("\"CALL>>> " ++ path ++ ":Add(a:%+v, b:%+v, )\""),
          .ident "a", .ident "b"]⟩ := by
    unfold infofCall
    rw [hm]
    rfl
  have hret : infofCall (returnMessage fnAdd) (resultNames fnAdd)
      = ⟨infof, [.basicLit "\"RET>>> %+v\"", .ident "sum"]⟩ := by
    rfl
  rw [hcall, hret] at hfn
  have hlogs : addLogs path fileAdd = .ok (true, { fileAdd with Decls := [.funcDecl
      { fnAdd with Body := some (
        [.exprStmt ⟨infof, [.basicLit ("\"CALL>>> " ++ path ++ ":Add(a:%+v, b:%+v, )\""),
            .ident "a", .ident "b"]⟩,
         .deferStmt ⟨infof, [.basicLit "\"RET>>> %+v\"", .ident "sum"]⟩,
         .other "sum = a + b", .other "return"]) }] }) := by
    unfold addLogs
    have hd : fileAdd.Decls = [.funcDecl fnAdd] := rfl
    rw [hd]
    simp only [inspectDecls, hfn]
  unfold modifyTree
  rw [hlogs]
  rfl

/-- C16, at the path `add.go`. -/
theorem modifyTree_add_scenario_witness :
    modifyTree "add.go" fileAdd = .ok (fileAddDone "add.go")
      ∧ importsOf (fileAddDone "add.go").Decls
        = [⟨none, "\"github.com/sirupsen/logrus\""⟩] :=
  modifyTree_add_scenario "add.go" (by decide)

/-- The texts that lines 135 and 144 format, for every path and every function
declaration: the entry text is `logrus.Infof("` + message + `", ` + names + `)` where the
message is `CALL>>>`, a space, the path, `:`, the function name, `(`, one `name:%+v, `
per parameter name other than `_` in declaration order, and `)`; the exit text has the
message `RET>>>`, a space, and one `%+v` per result name. -/
theorem messages_of_both_traces (path : String) (fn : FuncDecl) :
    loglineCall path fn
        = "logrus.Infof(\"" ++ callMessage path fn ++ "\", " ++ (argsStrings fn.Params).2 ++ ")"
    ∧ callMessage path fn
        = "CALL>>>" ++ " " ++ (path ++ ":" ++ fn.Name) ++ "("
          ++ String.join ((paramNames fn).map (fun n => n ++ ":%+v, ")) ++ ")"
    ∧ loglineReturn fn
        = "logrus.Infof(\"" ++ returnMessage fn ++ "\", " ++ (retStrings fn.Results).2 ++ ")"
    ∧ returnMessage fn
        = "RET>>>" ++ " " ++ String.join (List.replicate (resultNames fn).length "%+v") := by
  refine ⟨loglineCall_eq path fn, ?_, loglineReturn_eq fn, ?_⟩
  · unfold callMessage
    rw [argsString_eq_join]
    rfl
  · unfold returnMessage
    rw [retString_eq_join]
    rfl

/-- C17, at the failing input: for the path `d",e,"f.go` and the declaration
`func g(n int) (r int) { return n }` the message the claim describes is
`CALL>>> d",e,"f.go:g(n:%+v, )`, and the run of `addLogsFunc` completes with an entry
call whose message, its first argument, is the literal `"CALL>>> d"`, which is not the
literal of the described message; the exit message is `RET>>> %+v` as the claim has
it. -/
theorem entry_message_under_quoted_path :
    callMessage "d\",e,\"f.go" fnG = "CALL>>> d\",e,\"f.go:g(n:%+v, )"
    ∧ addLogsFunc "d\",e,\"f.go" fnG = .ok { fnG with Body := some (
        [.exprStmt ⟨infof, [.basicLit "\"CALL>>> d\"", .ident "e",
            .basicLit "\"f.go:g(n:%+v, )\"", .ident "n"]⟩,
         .deferStmt ⟨infof, [.basicLit "\"RET>>> %+v\"", .ident "r"]⟩,
         .other "return n"]) }
    ∧ "\"CALL>>> d\"" ≠ "\"" ++ callMessage "d\",e,\"f.go" fnG ++ "\"" :=
  ⟨by decide, by rfl, by decide⟩

/-- C18, at the failing input: when the parse succeeds and `printer.Fprint` fails on
every tree, `modify` returns the nil error in dry mode and in live mode. -/
theorem modify_drops_print_error :
    (∀ file dry, (envPrintFails dry).fprint file = some "write error")
    ∧ modify (envPrintFails true) "a.go" = .ok none
    ∧ modify (envPrintFails false) "a.go" = .ok none :=
  ⟨fun _ _ => rfl, by rfl, by rfl⟩

/-- C19: for every parser, path and file, whenever the traversal of `addLogs` over the
file completes: it is the run of `addLogs`; the file has as many declarations as before;
the function declarations the callback was handed are the function declarations of the
file, each once and in order (methods with receivers among them); and every function
declaration, at its position, has a body of exactly two more statements, the two new ones
before its former body, where the callback was handed the declaration with its former
body and right after it the nodes below the declaration with its new body, among them
every node of the two new statements, at which the callback left the tree as it was. The
traversal completes exactly when, at every function declaration, both texts parse to
calls and the body is present. -/
theorem addLogs_instruments_each_once (parse : String → Except String CallExpr)
    (path : String) (f : File) :
    (∀ (f1 : File) (c : Bool) (trace : List Node),
      inspectFile (callback parse path) f = .ok (f1, c, trace) →
        addLogsWith parse path f = .ok (c, f1)
        ∧ f1.Decls.length = f.Decls.length
        ∧ trace.filterMap funcDeclOfNode = f.Decls.filterMap funcDeclOf
        ∧ ∀ (i : Nat) (fn : FuncDecl), f.Decls[i]? = some (Decl.funcDecl fn) →
          ∃ s1 s2 B pre post, fn.Body = some B
            ∧ f1.Decls[i]? = some (Decl.funcDecl { fn with Body := some (s1 :: s2 :: B) })
            ∧ (s1 :: s2 :: B).length = B.length + 2
            ∧ trace = pre ++ Node.funcDecl fn
                :: (nodesBelowFunc { fn with Body := some (s1 :: s2 :: B) } ++ post)
            ∧ ∀ n ∈ nodesOfStmt s1 ++ nodesOfStmt s2,
                n ∈ nodesBelowFunc { fn with Body := some (s1 :: s2 :: B) }
                ∧ callback parse path n = .ok none)
    ∧ ((∃ f1 c trace, inspectFile (callback parse path) f = .ok (f1, c, trace))
        ↔ ∀ d ∈ f.Decls, Completes parse path d) := by
  constructor
  · intro f1 c trace h
    have hrun := addLogsWith_of_inspectFile parse path f f1 c trace h
    refine ⟨hrun, ?_⟩
    have hfile : callbacks (callback parse path) [.file f, .expr (.ident f.Name)] = .ok () :=
      rfl
    simp only [inspectFile, hfile] at h
    cases hw : walkDecls (callback parse path) f.Decls with
    | error e => simp only [hw, reduceCtorEq] at h
    | ok r =>
      obtain ⟨ds1, c2, t⟩ := r
      simp only [hw, Except.ok.injEq, Prod.mk.injEq] at h
      obtain ⟨rfl, rfl, rfl⟩ := h
      obtain ⟨htrace, -⟩ := walkDecls_trace parse path f.Decls ds1 c2 t hw
      have hat := walkDecls_trace_at parse path f.Decls ds1 c2 t hw
      rw [addLogsWith_eq] at hrun
      cases h1 : inspectDecls (addLogsFuncWith parse path) f.Decls with
      | error e => simp only [h1, reduceCtorEq] at hrun
      | ok r1 =>
        obtain ⟨c3, ds3⟩ := r1
        simp only [h1, Except.ok.injEq, Prod.mk.injEq, File.mk.injEq, true_and] at hrun
        obtain ⟨-, hds, -⟩ := hrun
        subst hds
        obtain ⟨hlen, -⟩ := inspectDecls_shape _ _ _ _ h1
        refine ⟨hlen, ?_, ?_⟩
        · simp only [List.filterMap_cons, funcDeclOfNode, htrace]
        · intro i fn hi
          obtain ⟨fn1, pre, post, hv, hget, ht⟩ := hat i fn hi
          obtain ⟨call, ret, B, -, -, hB, hfn⟩ := addLogsFuncWith_shape parse path fn fn1 hv
          have hfn1 : fn1 = { fn with Body := some (.exprStmt call :: .deferStmt ret :: B) } :=
            hfn
          subst hfn1
          refine ⟨.exprStmt call, .deferStmt ret, B,
            Node.file f :: Node.expr (.ident f.Name) :: pre, post, hB, hget, rfl, ?_, ?_⟩
          · rw [ht]
            rfl
          · intro n hn
            have hsub : n ∈ nodesBelowFunc
                { fn with Body := some (.exprStmt call :: .deferStmt ret :: B) } := by
              rcases List.mem_append.mp hn with h1n | h2n
              · exact nodesOfStmt_sub_nodesBelowFunc _ _ _ rfl (List.mem_cons_self _ _) n h1n
              · exact nodesOfStmt_sub_nodesBelowFunc _ _ _ rfl
                  (List.mem_cons_of_mem _ (List.mem_cons_self _ _)) n h2n
            exact ⟨hsub, callback_no_func parse path n (nodesBelowFunc_no_func _ n hsub)⟩
  · rw [← addLogsWith_completes_iff]
    constructor
    · rintro ⟨f1, c, trace, h⟩
      exact ⟨c, f1, addLogsWith_of_inspectFile parse path f f1 c trace h⟩
    · rintro ⟨c, f1, h⟩
      obtain ⟨trace, ht⟩ := inspectFile_of_addLogsWith parse path f f1 c h
      exact ⟨f1, c, trace, ht⟩

/-- C19, at a file with a variable, the method `get` with a receiver and the function
`f`, with the path `a.go` and the model `parseExpr` as the parser: the traversal
completes, the callback was handed the two function declarations once each, and both
bodies are two statements longer, the nodes of the new statements among the nodes handed
over after the declaration. -/
theorem addLogs_instruments_each_once_witness :
    ∃ f1 c trace, inspectFile (callback parseExpr "a.go") fileTwoFuncs = .ok (f1, c, trace)
      ∧ addLogsWith parseExpr "a.go" fileTwoFuncs = .ok (c, f1)
      ∧ trace.filterMap funcDeclOfNode = [fnMethod, fnEmpty]
      ∧ (∃ s1 s2 B pre post, fnMethod.Body = some B
          ∧ f1.Decls[1]? = some (Decl.funcDecl { fnMethod with Body := some (s1 :: s2 :: B) })
          ∧ (s1 :: s2 :: B).length = B.length + 2
          ∧ trace = pre ++ Node.funcDecl fnMethod
              :: (nodesBelowFunc { fnMethod with Body := some (s1 :: s2 :: B) } ++ post)
          ∧ ∀ n ∈ nodesOfStmt s1 ++ nodesOfStmt s2,
              n ∈ nodesBelowFunc { fnMethod with Body := some (s1 :: s2 :: B) }
              ∧ callback parseExpr "a.go" n = .ok none)
      ∧ (∃ s1 s2 B pre post, fnEmpty.Body = some B
          ∧ f1.Decls[2]? = some (Decl.funcDecl { fnEmpty with Body := some (s1 :: s2 :: B) })
          ∧ (s1 :: s2 :: B).length = B.length + 2
          ∧ trace = pre ++ Node.funcDecl fnEmpty
              :: (nodesBelowFunc { fnEmpty with Body := some (s1 :: s2 :: B) } ++ post)
          ∧ ∀ n ∈ nodesOfStmt s1 ++ nodesOfStmt s2,
              n ∈ nodesBelowFunc { fnEmpty with Body := some (s1 :: s2 :: B) }
              ∧ callback parseExpr "a.go" n = .ok none) := by
  have hall : ∀ d ∈ fileTwoFuncs.Decls, Completes parseExpr "a.go" d := by
    intro d hd
    simp only [fileTwoFuncs, List.mem_cons, List.not_mem_nil, or_false] at hd
    rcases hd with rfl | rfl | rfl
    · trivial
    · exact ⟨_, _, _, by rfl, by rfl, rfl⟩
    · exact ⟨_, _, _, by rfl, by rfl, rfl⟩
  obtain ⟨f1, c, trace, h⟩ :=
    (addLogs_instruments_each_once parseExpr "a.go" fileTwoFuncs).2.mpr hall
  obtain ⟨hrun, -, htrace, hidx⟩ :=
    (addLogs_instruments_each_once parseExpr "a.go" fileTwoFuncs).1 f1 c trace h
  exact ⟨f1, c, trace, h, hrun, htrace, hidx 1 fnMethod rfl, hidx 2 fnEmpty rfl⟩

/-- C20, at the failing input: for the parsed file `package main; func f()`, whose
function has no body, `addLogs` panics at the access to the statement list of the
body. -/
theorem addLogs_panics_on_absent_body :
    fnBodiless.Body = none
    ∧ addLogs "a.go" fileBodiless = .error "nil pointer dereference" :=
  ⟨rfl, by rfl⟩

end LogTracer
